import Mathlib

/-!
Verification of the e1 compression package (`src/e1.py`).

The Python module wraps a native codec (`e_comp` / `e_decomp` from
`e_compression.c`, which is not part of the available sources).  The Python
wrappers `compress`, `decompress`, `decompress_file` and `e_compression` are
translated directly from `src/e1.py`; the native block codec itself is
modelled from the specification (block layout, header fields, check value,
datatype capacity tables, status taxonomy) together with the frozen 56-byte
test fixture of `src/tests/test_e1.py`, which pins the bit-level payload
scheme: differences are packed into 32-bit big-endian words with a
prefix-free tag code
  `0`    : seven 9-bit differences in two words,
  `10`   : three 10-bit differences in one word,
  `1100` : four 7-bit differences in one word,
  `1101` : two 14-bit differences in one word,
  `1111` : one 28-bit difference in one word,
chosen greedily densest-first, a word-count/sample-count header word, and a
check word holding the block flag byte and the low 24 bits of the block's
last sample.  All twelve payload words of the frozen fixture are reproduced
bit-for-bit by this model (theorem for claim C2).
-/

namespace E1

/-- Status codes of the native library, from `ECStatus` in `src/e1.py`. -/
inductive ECStatus where
  | EC_SUCCESS
  | EC_FAILED
  | EC_LENGTH_ERROR
  | EC_SAMP_ERROR
  | EC_DIFF_ERROR
  | EC_CHECK_ERROR
  | EC_ARG_ERROR
  | EC_TYPE_ERROR
  | EC_MEMORY_ERROR
deriving DecidableEq

/-- Outcome of the Python `decompress` wrapper: either the `ValueError`
raised by `np.frombuffer` when the buffer length is not a multiple of 4, or
the `Exception` carrying the status code raised when the core decoder does
not return `EC_SUCCESS`. -/
inductive DecompressError where
  | valueError
  | ec (status : ECStatus)
deriving DecidableEq

deriving instance DecidableEq for Except

/-- Two's-complement encoding of an integer into a `w`-bit field. -/
def toField (w : Nat) (d : Int) : Nat := (d % (2 : Int) ^ w).toNat

/-- Two's-complement decoding of a `w`-bit field. -/
def fromField (w : Nat) (v : Nat) : Int :=
  if v < 2 ^ (w - 1) then (v : Int) else (v : Int) - 2 ^ w

/-- Does `d` fit a signed `w`-bit field? -/
def fitsB (w : Nat) (d : Int) : Bool :=
  decide (-((2 : Int) ^ (w - 1)) ≤ d) && decide (d < (2 : Int) ^ (w - 1))

/-- Reduction of an integer into the signed 32-bit range, as performed by
the C decoder's `int32_t` accumulation. -/
def wrap32 (x : Int) : Int := (x + 2 ^ 31) % 2 ^ 32 - 2 ^ 31

/-- Payload word holding four 7-bit differences under tag `1100`. -/
def enc4x7 (a b c d : Int) : Nat :=
  12 * 2 ^ 28 + toField 7 a * 2 ^ 21 + toField 7 b * 2 ^ 14 +
    toField 7 c * 2 ^ 7 + toField 7 d

/-- Combined 64-bit value of a two-word group holding seven 9-bit
differences under tag `0`. -/
def enc7x9val (a b c d e f g : Int) : Nat :=
  toField 9 a * 2 ^ 54 + toField 9 b * 2 ^ 45 + toField 9 c * 2 ^ 36 +
    toField 9 d * 2 ^ 27 + toField 9 e * 2 ^ 18 + toField 9 f * 2 ^ 9 +
    toField 9 g

/-- Payload word holding three 10-bit differences under tag `10`. -/
def enc3x10 (a b c : Int) : Nat :=
  2 * 2 ^ 30 + toField 10 a * 2 ^ 20 + toField 10 b * 2 ^ 10 + toField 10 c

/-- Payload word holding two 14-bit differences under tag `1101`. -/
def enc2x14 (a b : Int) : Nat :=
  13 * 2 ^ 28 + toField 14 a * 2 ^ 14 + toField 14 b

/-- Payload word holding one 28-bit difference under tag `1111`. -/
def enc1x28 (a : Int) : Nat := 15 * 2 ^ 28 + toField 28 a

/-- Marker word of a two-word escape group (tag `1110`): the following word
carries a full 32-bit difference. -/
def escWord : Nat := 14 * 2 ^ 28

/-- Modelled from the spec: the difference packer of the missing native
encoder `e_comp` (`e_compression.c`).  Differences are packed greedily,
densest code first, as pinned down by the frozen fixture; a difference that
fits no tagged field width is stored in full 32 bits behind an escape
marker so that round-trip holds for every int32 sample sequence, as §8 of
the spec requires.  The `fuel` argument is the list length, for structural
recursion. -/
def packDiffs : Nat → List Int → List Nat
  | 0, _ => []
  | _, [] => []
  | fuel + 1, d0 :: rest =>
    match rest with
    | d1 :: d2 :: d3 :: d4 :: d5 :: d6 :: rest6 =>
      if fitsB 7 d0 && fitsB 7 d1 && fitsB 7 d2 && fitsB 7 d3 then
        enc4x7 d0 d1 d2 d3 :: packDiffs fuel (d4 :: d5 :: d6 :: rest6)
      else if fitsB 9 d0 && fitsB 9 d1 && fitsB 9 d2 && fitsB 9 d3 &&
          fitsB 9 d4 && fitsB 9 d5 && fitsB 9 d6 then
        enc7x9val d0 d1 d2 d3 d4 d5 d6 / 2 ^ 32 ::
          enc7x9val d0 d1 d2 d3 d4 d5 d6 % 2 ^ 32 :: packDiffs fuel rest6
      else if fitsB 10 d0 && fitsB 10 d1 && fitsB 10 d2 then
        enc3x10 d0 d1 d2 :: packDiffs fuel (d3 :: d4 :: d5 :: d6 :: rest6)
      else if fitsB 14 d0 && fitsB 14 d1 then
        enc2x14 d0 d1 :: packDiffs fuel (d2 :: d3 :: d4 :: d5 :: d6 :: rest6)
      else if fitsB 28 d0 then
        enc1x28 d0 :: packDiffs fuel rest
      else
        escWord :: toField 32 d0 :: packDiffs fuel rest
    | d1 :: d2 :: d3 :: rest3 =>
      if fitsB 7 d0 && fitsB 7 d1 && fitsB 7 d2 && fitsB 7 d3 then
        enc4x7 d0 d1 d2 d3 :: packDiffs fuel rest3
      else if fitsB 10 d0 && fitsB 10 d1 && fitsB 10 d2 then
        enc3x10 d0 d1 d2 :: packDiffs fuel (d3 :: rest3)
      else if fitsB 14 d0 && fitsB 14 d1 then
        enc2x14 d0 d1 :: packDiffs fuel (d2 :: d3 :: rest3)
      else if fitsB 28 d0 then
        enc1x28 d0 :: packDiffs fuel rest
      else
        escWord :: toField 32 d0 :: packDiffs fuel rest
    | d1 :: d2 :: rest2 =>
      if fitsB 10 d0 && fitsB 10 d1 && fitsB 10 d2 then
        enc3x10 d0 d1 d2 :: packDiffs fuel rest2
      else if fitsB 14 d0 && fitsB 14 d1 then
        enc2x14 d0 d1 :: packDiffs fuel (d2 :: rest2)
      else if fitsB 28 d0 then
        enc1x28 d0 :: packDiffs fuel rest
      else
        escWord :: toField 32 d0 :: packDiffs fuel rest
    | d1 :: rest1 =>
      if fitsB 14 d0 && fitsB 14 d1 then
        enc2x14 d0 d1 :: packDiffs fuel rest1
      else if fitsB 28 d0 then
        enc1x28 d0 :: packDiffs fuel rest
      else
        escWord :: toField 32 d0 :: packDiffs fuel rest
    | [] =>
      if fitsB 28 d0 then
        [enc1x28 d0]
      else
        [escWord, toField 32 d0]

/-- Fields of a decoded two-word 7×9 group. -/
def dec7x9 (hi lo : Nat) : List Int :=
  [fromField 9 ((hi * 2 ^ 32 + lo) / 2 ^ 54 % 2 ^ 9),
   fromField 9 ((hi * 2 ^ 32 + lo) / 2 ^ 45 % 2 ^ 9),
   fromField 9 ((hi * 2 ^ 32 + lo) / 2 ^ 36 % 2 ^ 9),
   fromField 9 ((hi * 2 ^ 32 + lo) / 2 ^ 27 % 2 ^ 9),
   fromField 9 ((hi * 2 ^ 32 + lo) / 2 ^ 18 % 2 ^ 9),
   fromField 9 ((hi * 2 ^ 32 + lo) / 2 ^ 9 % 2 ^ 9),
   fromField 9 ((hi * 2 ^ 32 + lo) % 2 ^ 9)]

/-- Fields of a decoded 4×7 group word. -/
def dec4x7 (w : Nat) : List Int :=
  [fromField 7 (w / 2 ^ 21 % 2 ^ 7), fromField 7 (w / 2 ^ 14 % 2 ^ 7),
   fromField 7 (w / 2 ^ 7 % 2 ^ 7), fromField 7 (w % 2 ^ 7)]

/-- Fields of a decoded 3×10 group word. -/
def dec3x10 (w : Nat) : List Int :=
  [fromField 10 (w / 2 ^ 20 % 2 ^ 10), fromField 10 (w / 2 ^ 10 % 2 ^ 10),
   fromField 10 (w % 2 ^ 10)]

/-- Fields of a decoded 2×14 group word. -/
def dec2x14 (w : Nat) : List Int :=
  [fromField 14 (w / 2 ^ 14 % 2 ^ 14), fromField 14 (w % 2 ^ 14)]

/-- Modelled from the spec: the difference reader of the missing native
decoder `e_decomp` (`e_compression.c`).  Reads tagged groups from the data
words of one block until `need` differences have been produced;
inconsistent bookkeeping (a group would overshoot the declared sample
count) yields `EC_DIFF_ERROR`, exhausting the words before the declared
sample count is reached yields `EC_SAMP_ERROR`, per §4.3 and §7 of the
spec. -/
def decodeDiffs : Nat → List Nat → Nat → Except ECStatus (List Int)
  | _, _, 0 => .ok []
  | 0, _, _ + 1 => .error .EC_SAMP_ERROR
  | _ + 1, [], _ + 1 => .error .EC_SAMP_ERROR
  | fuel + 1, w :: rest, need + 1 =>
    if w < 2 ^ 31 then
      match rest with
      | [] => .error .EC_SAMP_ERROR
      | w2 :: rest2 =>
        if need + 1 < 7 then .error .EC_DIFF_ERROR
        else
          match decodeDiffs fuel rest2 (need + 1 - 7) with
          | .error e => .error e
          | .ok ds => .ok (dec7x9 w w2 ++ ds)
    else if w / 2 ^ 30 = 2 then
      if need + 1 < 3 then .error .EC_DIFF_ERROR
      else
        match decodeDiffs fuel rest (need + 1 - 3) with
        | .error e => .error e
        | .ok ds => .ok (dec3x10 w ++ ds)
    else if w / 2 ^ 28 = 12 then
      if need + 1 < 4 then .error .EC_DIFF_ERROR
      else
        match decodeDiffs fuel rest (need + 1 - 4) with
        | .error e => .error e
        | .ok ds => .ok (dec4x7 w ++ ds)
    else if w / 2 ^ 28 = 13 then
      if need + 1 < 2 then .error .EC_DIFF_ERROR
      else
        match decodeDiffs fuel rest (need + 1 - 2) with
        | .error e => .error e
        | .ok ds => .ok (dec2x14 w ++ ds)
    else if w / 2 ^ 28 = 14 then
      match rest with
      | [] => .error .EC_SAMP_ERROR
      | w2 :: rest2 =>
        match decodeDiffs fuel rest2 need with
        | .error e => .error e
        | .ok ds => .ok (fromField 32 (w2 % 2 ^ 32) :: ds)
    else
      match decodeDiffs fuel rest need with
      | .error e => .error e
      | .ok ds => .ok (fromField 28 (w % 2 ^ 28) :: ds)

/-- Integration of decoded differences into samples, with the `int32_t`
wrap-around of the C accumulation. -/
def integrate (prev : Int) : List Int → List Int
  | [] => []
  | d :: ds => wrap32 (prev + d) :: integrate (wrap32 (prev + d)) ds

/-- Successive differences of a chunk of samples, the first one taken
against the running previous sample (`out0` for the first block). -/
def diffsFrom (prev : Int) : List Int → List Int
  | [] => []
  | x :: xs => (x - prev) :: diffsFrom x xs

/-- One self-describing block: declared sample count, block flag byte,
check value (low 24 bits of the last sample) and packed data words. -/
structure Block where
  sampleCount : Nat
  flag : Nat
  check : Nat
  dataWords : List Nat
deriving DecidableEq

/-- Declared byte length of a block: 4 header bytes, 4 check bytes, and
the data words actually written. -/
def Block.byteLength (b : Block) : Nat := 4 * (2 + b.dataWords.length)

/-- Serialization of one block into 32-bit words: the header word
(`byte_length` in the high 16 bits, `sample_count` in the low 16 bits),
the check word (flag byte then 24-bit check value), the data words. -/
def Block.words (b : Block) : List Nat :=
  (b.byteLength * 2 ^ 16 + b.sampleCount) :: (b.flag * 2 ^ 24 + b.check) ::
    b.dataWords

/-- Modelled from the spec: the block encoder of the missing native
`e_comp`.  Encodes one chunk against the running previous sample. -/
def encodeBlock (prev : Int) (chunk : List Int) (flag : Nat) : Block :=
  { sampleCount := chunk.length
    flag := flag
    check := ((chunk.getLast?.getD prev) % (2 : Int) ^ 24).toNat
    dataWords := packDiffs chunk.length (diffsFrom prev chunk) }

/-- Splitting of a sample sequence into chunks of at most `cap` samples
(fuel-driven; `fuel` is the sequence length). -/
def chunksOf (cap : Nat) : Nat → List Int → List (List Int)
  | 0, _ => []
  | _, [] => []
  | fuel + 1, s =>
    if s.length ≤ cap then [s] else s.take cap :: chunksOf cap fuel (s.drop cap)

/-- Modelled from the spec: byte budget table of the `DatatypeSizer`
(§4.1): lowercase datatype letter, digit 0 → 1024 and digit d → d×2048;
uppercase letter, digit 0 → 1200 and digit d → (d+1)×400. -/
def capacityBytes (upper : Bool) (digit : Nat) : Nat :=
  if upper then (if digit = 0 then 1200 else (digit + 1) * 400)
  else (if digit = 0 then 1024 else digit * 2048)

/-- Sample capacity of one block (§4.1): `capacity_bytes/4 − 2`, two words
being reserved for the header word and the check word. -/
def capacitySamples (upper : Bool) (digit : Nat) : Nat :=
  capacityBytes upper digit / 4 - 2

/-- Block sequence produced for the list of chunks, FULL_END flag byte 0
for every chunk but the last, SHORT_END flag byte 1 for the last. -/
def compressBlocksGo (prev : Int) : List (List Int) → List Block
  | [] => []
  | [c] => [encodeBlock prev c 1]
  | c :: c2 :: cs =>
    encodeBlock prev c 0 :: compressBlocksGo (c.getLast?.getD prev) (c2 :: cs)

/-- Modelled from the spec: block splitting of the missing native `e_comp`
for the default datatype `"e1"` used by the Python `compress` wrapper:
capacity `2048/4 − 2 = 510` samples per block. -/
def compressBlocks (s : List Int) : List Block :=
  compressBlocksGo 0 (chunksOf (capacitySamples false 1) s.length s)

/-- Word stream emitted by the modelled `e_comp` for the whole sequence. -/
def compressWords (s : List Int) : List Nat :=
  ((compressBlocks s).map Block.words).flatten

/-- Big-endian serialization of one 32-bit word into four bytes. -/
def wordToBytes (w : Nat) : List Nat :=
  [w / 2 ^ 24 % 256, w / 2 ^ 16 % 256, w / 2 ^ 8 % 256, w % 256]

/-- Big-endian serialization of a word stream into bytes. -/
def wordsToBytes (ws : List Nat) : List Nat := (ws.map wordToBytes).flatten

/-- Big-endian deserialization of bytes into 32-bit words; a trailing
fragment of fewer than four bytes is dropped. -/
def bytesToWords : List Nat → List Nat
  | b0 :: b1 :: b2 :: b3 :: rest =>
    (b0 * 2 ^ 24 + b1 * 2 ^ 16 + b2 * 2 ^ 8 + b3) :: bytesToWords rest
  | _ => []

/-- The Python `compress` (`src/e1.py` lines 97-140): compresses with
datatype `"e1"`, returns the emitted bytes truncated to `outbytes`. -/
def compress (s : List Int) : List Nat := wordsToBytes (compressWords s)

/-- Modelled from the spec: the block loop of the missing native decoder
`e_decomp`.  Decodes consecutive blocks, accumulating samples until the
requested count is reached (§4.4); trailing words are ignored once the
count is satisfied; the first failing block ends the call with its status
and the samples of the blocks decoded before it (the native routine has
already written those into the caller's buffer). -/
def decodeBlocks : Nat → List Nat → Nat → Int → ECStatus × List Int
  | _, _, 0, _ => (.EC_SUCCESS, [])
  | 0, _, _ + 1, _ => (.EC_SAMP_ERROR, [])
  | fuel + 1, ws, need + 1, prev =>
    match ws with
    | [] => (.EC_LENGTH_ERROR, [])
    | h :: rest =>
      if h / 2 ^ 16 % 4 ≠ 0 ∨ h / 2 ^ 16 / 4 < 2 then (.EC_LENGTH_ERROR, [])
      else if ws.length < h / 2 ^ 16 / 4 then (.EC_LENGTH_ERROR, [])
      else if need + 1 < h % 2 ^ 16 then (.EC_SAMP_ERROR, [])
      else
        match rest with
        | [] => (.EC_LENGTH_ERROR, [])
        | cw :: rest2 =>
          match decodeDiffs (rest2.take (h / 2 ^ 16 / 4 - 2)).length.succ
              (rest2.take (h / 2 ^ 16 / 4 - 2)) (h % 2 ^ 16) with
          | .error st => (st, [])
          | .ok ds =>
            if ((integrate prev ds).getLast?.getD prev % (2 : Int) ^ 24).toNat
                ≠ cw % 2 ^ 24 then (.EC_CHECK_ERROR, [])
            else
              ((decodeBlocks fuel (ws.drop (h / 2 ^ 16 / 4))
                  (need + 1 - h % 2 ^ 16)
                  ((integrate prev ds).getLast?.getD prev)).1,
                integrate prev ds ++
                  (decodeBlocks fuel (ws.drop (h / 2 ^ 16 / 4))
                    (need + 1 - h % 2 ^ 16)
                    ((integrate prev ds).getLast?.getD prev)).2)

/-- Modelled from the spec: entry point of the missing native decoder
`e_decomp(in, out, insamp, inbyte, out0, outsamp)`, over the word stream. -/
def e_decomp (ws : List Nat) (count : Nat) (out0 : Int) : ECStatus × List Int :=
  decodeBlocks (ws.length + 1) ws count out0

/-- The Python `decompress` (`src/e1.py` lines 57-94): reads the buffer
into 4-byte words via `np.frombuffer` (which raises `ValueError` unless
the buffer length is a multiple of 4), calls the native decoder, raises
the status code on any non-success, returns the decoded array otherwise. -/
def decompress (buff : List Nat) (count : Nat) : Except DecompressError (List Int) :=
  if buff.length % 4 ≠ 0 then .error .valueError
  else
    match e_decomp (bytesToWords buff) count 0 with
    | (.EC_SUCCESS, ys) => .ok ys
    | (st, _) => .error (.ec st)

/-- A readable byte stream with a current position, standing for the file
object handed to `decompress_file`. -/
structure ByteStream where
  contents : List Nat
  pos : Nat

/-- The Python `decompress_file` (`src/e1.py` lines 143-153): records the
position, measures the remaining bytes, caps at `5*count`, reads
`flen * 4` bytes (a read past the end of the stream returns the available
bytes), and delegates to `decompress`. -/
def decompress_file (f : ByteStream) (count : Nat) : Except DecompressError (List Int) :=
  decompress ((f.contents.drop f.pos).take
    ((if f.contents.length - f.pos > 5 * count then 5 * count
      else f.contents.length - f.pos) * 4)) count

/-- The Python `e_compression` (`src/e1.py` lines 156-218): raises
`ValueError` when `BYTEOFFSET` exceeds the file size; otherwise reads a
capped chunk, runs the native decoder into a zero-initialized buffer of
`NUM` int32 values, assigns the status code to a local variable `retval`,
and returns only the data array. -/
def e_compression (contents : List Nat) (byteOffset num : Nat) :
    Except Unit (List Int) :=
  if contents.length < byteOffset then .error ()
  else
    .ok ((e_decomp (bytesToWords ((contents.drop byteOffset).take
        ((if contents.length - byteOffset > 5 * num then 5 * num
          else contents.length - byteOffset) * 4))) num 0).2 ++
      List.replicate (num - (e_decomp (bytesToWords ((contents.drop byteOffset).take
        ((if contents.length - byteOffset > 5 * num then 5 * num
          else contents.length - byteOffset) * 4))) num 0).2.length) 0)

/-- Block-structure walker over the emitted word stream, the word-level
counterpart of `_analyse_blocks` in `src/tests/test_e1.py`: for each block
it records the declared byte length, the declared sample count, and the
flag byte of the check word, then advances by the declared byte length. -/
def analyse : Nat → List Nat → List (Nat × Nat × Nat)
  | 0, _ => []
  | _, [] => []
  | fuel + 1, h :: rest =>
    (h / 2 ^ 16, h % 2 ^ 16, rest.headD 0 / 2 ^ 24) ::
      analyse fuel (rest.drop (h / 2 ^ 16 / 4 - 1))

/-- Flip of bit `bit` of byte `i` of a byte string. -/
def flipByteBit (bs : List Nat) (i bit : Nat) : List Nat :=
  bs.set i ((bs.getD i 0) ^^^ 2 ^ bit)

/-- The frozen 40-sample fixture `e1data` of `src/tests/test_e1.py`. -/
def e1data : List Int :=
  [257, 262, 327, 295, 248, 323, 352, 261, 210, 246, 286, 273, 277, 322,
   345, 260, 217, 349, 351, 263, 263, 209, 202, 247, 308, 358, 306, 295,
   327, 292, 221, 234, 291, 210, 165, 247, 269, 329, 406, 412]

/-- The frozen 56-byte compressed fixture `e1bytes` of
`src/tests/test_e1.py`. -/
def e1bytes : List Nat :=
  [0x00, 0x38, 0x00, 0x28, 0x01, 0x00, 0x01, 0x9c, 0x90, 0x10, 0x14, 0x41,
   0x78, 0x3a, 0x24, 0xb0, 0xee, 0x97, 0x9a, 0x24, 0xc5, 0x1c, 0xc2, 0x2d,
   0x05, 0xf5, 0x7d, 0x54, 0x20, 0x0b, 0x50, 0x00, 0xc9, 0x5e, 0x56, 0xbd,
   0xc6, 0x53, 0x3a, 0xa0, 0x77, 0x77, 0x20, 0xd1, 0xce, 0xbf, 0xa6, 0x52,
   0x81, 0x60, 0xf0, 0x4d, 0xf0, 0x00, 0x00, 0x06]

/-! ### Field-level lemmas -/

theorem toField_cast (w : Nat) (d : Int) : (toField w d : Int) = d % 2 ^ w := by
  have h0 : (0 : Int) < 2 ^ w := by positivity
  simp [toField, Int.toNat_of_nonneg (Int.emod_nonneg d (ne_of_gt h0))]

theorem toField_lt (w : Nat) (d : Int) : toField w d < 2 ^ w := by
  have h0 : (0 : Int) < 2 ^ w := by positivity
  have h2 := Int.emod_lt_of_pos d h0
  have h3 := toField_cast w d
  have hc : ((2 ^ w : Nat) : Int) = 2 ^ w := by push_cast; ring
  omega

theorem fits_of_fitsB {w : Nat} {d : Int}
    (h : fitsB w d = true) : -((2 : Int) ^ (w - 1)) ≤ d ∧ d < 2 ^ (w - 1) := by
  simpa [fitsB] using h

theorem fromField_toField {w : Nat} {d : Int} (hw : 0 < w)
    (h : fitsB w d = true) : fromField w (toField w d) = d := by
  obtain ⟨h1, h2⟩ := fits_of_fitsB h
  have h0 : (0 : Int) < 2 ^ w := by positivity
  have h2w : (2 : Int) ^ w = 2 ^ (w - 1) * 2 := by
    conv_lhs => rw [show w = (w - 1) + 1 by omega]
    rw [pow_succ]
  have hP : (0 : Int) < 2 ^ (w - 1) := by positivity
  have hcW : ((2 ^ w : Nat) : Int) = 2 ^ w := by push_cast; ring
  have hcP : ((2 ^ (w - 1) : Nat) : Int) = 2 ^ (w - 1) := by push_cast; ring
  rcases le_or_lt 0 d with hd | hd
  · have htd : (toField w d : Int) = d := by
      rw [toField_cast]
      exact Int.emod_eq_of_lt hd (by omega)
    have hsm : toField w d < 2 ^ (w - 1) := by omega
    rw [fromField, if_pos hsm]
    omega
  · have hx : (d + (2 : Int) ^ w * 1) % (2 : Int) ^ w = d % (2 : Int) ^ w :=
      Int.add_mul_emod_self_left (a := d) (b := (2 : Int) ^ w) (c := 1)
    have hy : (d + (2 : Int) ^ w * 1) % (2 : Int) ^ w = d + (2 : Int) ^ w * 1 :=
      Int.emod_eq_of_lt (by omega) (by omega)
    have htd : (toField w d : Int) = d + 2 ^ w := by
      rw [toField_cast]
      omega
    have hsm : ¬ toField w d < 2 ^ (w - 1) := by omega
    rw [fromField, if_neg hsm]
    omega

theorem fromField_toField32 (d : Int) :
    ∃ k : Int, fromField 32 (toField 32 d) = d + 2 ^ 32 * k := by
  have h3 := toField_cast 32 d
  have hdef : d % (2 : Int) ^ 32 = d - 2 ^ 32 * (d / 2 ^ 32) := by
    rw [Int.emod_def]
  rw [fromField]
  split_ifs with hlt
  · exact ⟨-(d / 2 ^ 32), by push_cast; omega⟩
  · exact ⟨-(d / 2 ^ 32) - 1, by push_cast; omega⟩

theorem wrap32_eq_self {x : Int} (h1 : -(2 ^ 31) ≤ x) (h2 : x < 2 ^ 31) :
    wrap32 x = x := by
  have := Int.emod_eq_of_lt (a := x + 2 ^ 31) (b := 2 ^ 32) (by omega) (by omega)
  simp only [wrap32]
  omega

theorem wrap32_add_mul (x k : Int) : wrap32 (x + 2 ^ 32 * k) = wrap32 x := by
  simp only [wrap32]
  rw [show x + 2 ^ 32 * k + 2 ^ 31 = x + 2 ^ 31 + 2 ^ 32 * k by ring,
    Int.add_mul_emod_self_left]

theorem wrap32_mem_range (x : Int) :
    -(2 ^ 31) ≤ wrap32 x ∧ wrap32 x < 2 ^ 31 := by
  have h0 : (0 : Int) < 2 ^ 32 := by norm_num
  have h1 := Int.emod_nonneg (x + 2 ^ 31) (ne_of_gt h0)
  have h2 := Int.emod_lt_of_pos (x + 2 ^ 31) h0
  simp only [wrap32]
  omega

/-- Difference equivalence: two differences that integrate identically
from any accumulator value. -/
def DiffEquiv (d e : Int) : Prop := ∀ x : Int, wrap32 (x + e) = wrap32 (x + d)

theorem diffEquiv_refl (d : Int) : DiffEquiv d d := fun _ => rfl

theorem diffEquiv_escape (d : Int) : DiffEquiv d (fromField 32 (toField 32 d)) := by
  intro x
  obtain ⟨k, hk⟩ := fromField_toField32 d
  rw [hk, show x + (d + 2 ^ 32 * k) = x + d + 2 ^ 32 * k by ring, wrap32_add_mul]

/-! ### Group-level round-trip lemmas -/

theorem dec4x7_enc {a b c d : Int} (ha : fitsB 7 a = true) (hb : fitsB 7 b = true)
    (hc : fitsB 7 c = true) (hd : fitsB 7 d = true) :
    dec4x7 (enc4x7 a b c d) = [a, b, c, d] := by
  have h1 := toField_lt 7 a
  have h2 := toField_lt 7 b
  have h3 := toField_lt 7 c
  have h4 := toField_lt 7 d
  simp only [dec4x7, enc4x7]
  rw [show (12 * 2 ^ 28 + toField 7 a * 2 ^ 21 + toField 7 b * 2 ^ 14 +
      toField 7 c * 2 ^ 7 + toField 7 d) / 2 ^ 21 % 2 ^ 7 = toField 7 a by omega,
    show (12 * 2 ^ 28 + toField 7 a * 2 ^ 21 + toField 7 b * 2 ^ 14 +
      toField 7 c * 2 ^ 7 + toField 7 d) / 2 ^ 14 % 2 ^ 7 = toField 7 b by omega,
    show (12 * 2 ^ 28 + toField 7 a * 2 ^ 21 + toField 7 b * 2 ^ 14 +
      toField 7 c * 2 ^ 7 + toField 7 d) / 2 ^ 7 % 2 ^ 7 = toField 7 c by omega,
    show (12 * 2 ^ 28 + toField 7 a * 2 ^ 21 + toField 7 b * 2 ^ 14 +
      toField 7 c * 2 ^ 7 + toField 7 d) % 2 ^ 7 = toField 7 d by omega,
    fromField_toField (by norm_num) ha, fromField_toField (by norm_num) hb,
    fromField_toField (by norm_num) hc, fromField_toField (by norm_num) hd]

theorem dec3x10_enc {a b c : Int} (ha : fitsB 10 a = true) (hb : fitsB 10 b = true)
    (hc : fitsB 10 c = true) :
    dec3x10 (enc3x10 a b c) = [a, b, c] := by
  have h1 := toField_lt 10 a
  have h2 := toField_lt 10 b
  have h3 := toField_lt 10 c
  simp only [dec3x10, enc3x10]
  rw [show (2 * 2 ^ 30 + toField 10 a * 2 ^ 20 + toField 10 b * 2 ^ 10 +
      toField 10 c) / 2 ^ 20 % 2 ^ 10 = toField 10 a by omega,
    show (2 * 2 ^ 30 + toField 10 a * 2 ^ 20 + toField 10 b * 2 ^ 10 +
      toField 10 c) / 2 ^ 10 % 2 ^ 10 = toField 10 b by omega,
    show (2 * 2 ^ 30 + toField 10 a * 2 ^ 20 + toField 10 b * 2 ^ 10 +
      toField 10 c) % 2 ^ 10 = toField 10 c by omega,
    fromField_toField (by norm_num) ha, fromField_toField (by norm_num) hb,
    fromField_toField (by norm_num) hc]

theorem dec2x14_enc {a b : Int} (ha : fitsB 14 a = true) (hb : fitsB 14 b = true) :
    dec2x14 (enc2x14 a b) = [a, b] := by
  have h1 := toField_lt 14 a
  have h2 := toField_lt 14 b
  simp only [dec2x14, enc2x14]
  rw [show (13 * 2 ^ 28 + toField 14 a * 2 ^ 14 + toField 14 b) / 2 ^ 14 %
      2 ^ 14 = toField 14 a by omega,
    show (13 * 2 ^ 28 + toField 14 a * 2 ^ 14 + toField 14 b) % 2 ^ 14 =
      toField 14 b by omega,
    fromField_toField (by norm_num) ha, fromField_toField (by norm_num) hb]

theorem dec7x9_enc {a b c d e f g : Int} (ha : fitsB 9 a = true)
    (hb : fitsB 9 b = true) (hc : fitsB 9 c = true) (hd : fitsB 9 d = true)
    (he : fitsB 9 e = true) (hf : fitsB 9 f = true) (hg : fitsB 9 g = true) :
    dec7x9 (enc7x9val a b c d e f g / 2 ^ 32) (enc7x9val a b c d e f g % 2 ^ 32) =
      [a, b, c, d, e, f, g] := by
  have h1 := toField_lt 9 a
  have h2 := toField_lt 9 b
  have h3 := toField_lt 9 c
  have h4 := toField_lt 9 d
  have h5 := toField_lt 9 e
  have h6 := toField_lt 9 f
  have h7 := toField_lt 9 g
  simp only [dec7x9, Nat.div_add_mod', enc7x9val]
  rw [show (toField 9 a * 2 ^ 54 + toField 9 b * 2 ^ 45 + toField 9 c * 2 ^ 36 +
      toField 9 d * 2 ^ 27 + toField 9 e * 2 ^ 18 + toField 9 f * 2 ^ 9 +
      toField 9 g) / 2 ^ 54 % 2 ^ 9 = toField 9 a by omega,
    show (toField 9 a * 2 ^ 54 + toField 9 b * 2 ^ 45 + toField 9 c * 2 ^ 36 +
      toField 9 d * 2 ^ 27 + toField 9 e * 2 ^ 18 + toField 9 f * 2 ^ 9 +
      toField 9 g) / 2 ^ 45 % 2 ^ 9 = toField 9 b by omega,
    show (toField 9 a * 2 ^ 54 + toField 9 b * 2 ^ 45 + toField 9 c * 2 ^ 36 +
      toField 9 d * 2 ^ 27 + toField 9 e * 2 ^ 18 + toField 9 f * 2 ^ 9 +
      toField 9 g) / 2 ^ 36 % 2 ^ 9 = toField 9 c by omega,
    show (toField 9 a * 2 ^ 54 + toField 9 b * 2 ^ 45 + toField 9 c * 2 ^ 36 +
      toField 9 d * 2 ^ 27 + toField 9 e * 2 ^ 18 + toField 9 f * 2 ^ 9 +
      toField 9 g) / 2 ^ 27 % 2 ^ 9 = toField 9 d by omega,
    show (toField 9 a * 2 ^ 54 + toField 9 b * 2 ^ 45 + toField 9 c * 2 ^ 36 +
      toField 9 d * 2 ^ 27 + toField 9 e * 2 ^ 18 + toField 9 f * 2 ^ 9 +
      toField 9 g) / 2 ^ 18 % 2 ^ 9 = toField 9 e by omega,
    show (toField 9 a * 2 ^ 54 + toField 9 b * 2 ^ 45 + toField 9 c * 2 ^ 36 +
      toField 9 d * 2 ^ 27 + toField 9 e * 2 ^ 18 + toField 9 f * 2 ^ 9 +
      toField 9 g) / 2 ^ 9 % 2 ^ 9 = toField 9 f by omega,
    show (toField 9 a * 2 ^ 54 + toField 9 b * 2 ^ 45 + toField 9 c * 2 ^ 36 +
      toField 9 d * 2 ^ 27 + toField 9 e * 2 ^ 18 + toField 9 f * 2 ^ 9 +
      toField 9 g) % 2 ^ 9 = toField 9 g by omega,
    fromField_toField (by norm_num) ha, fromField_toField (by norm_num) hb,
    fromField_toField (by norm_num) hc, fromField_toField (by norm_num) hd,
    fromField_toField (by norm_num) he, fromField_toField (by norm_num) hf,
    fromField_toField (by norm_num) hg]

/-! ### Step lemmas for `decodeDiffs` on encoded groups -/

theorem decodeDiffs_enc4x7 (fuel k : Nat) (tail : List Nat) {a b c d : Int}
    (ha : fitsB 7 a = true) (hb : fitsB 7 b = true) (hc : fitsB 7 c = true)
    (hd : fitsB 7 d = true) :
    decodeDiffs (fuel + 1) (enc4x7 a b c d :: tail) (k + 4) =
      match decodeDiffs fuel tail k with
      | .error e => .error e
      | .ok ds => .ok (a :: b :: c :: d :: ds) := by
  have h1 := toField_lt 7 a
  have h2 := toField_lt 7 b
  have h3 := toField_lt 7 c
  have h4 := toField_lt 7 d
  have hge : ¬ enc4x7 a b c d < 2 ^ 31 := by simp only [enc4x7]; omega
  have h30 : ¬ enc4x7 a b c d / 2 ^ 30 = 2 := by simp only [enc4x7]; omega
  have h28 : enc4x7 a b c d / 2 ^ 28 = 12 := by simp only [enc4x7]; omega
  have hk : ¬ (k + 3 + 1 < 4) := by omega
  have hsub : k + 3 + 1 - 4 = k := by omega
  show decodeDiffs (fuel + 1) (enc4x7 a b c d :: tail) (k + 3 + 1) = _
  simp only [decodeDiffs, hge, h30, h28, hk, hsub, eq_self_iff_true, if_true,
    if_false, ite_true, ite_false, dec4x7_enc ha hb hc hd]
  rcases decodeDiffs fuel tail k with e | ds <;> simp

theorem decodeDiffs_enc7x9 (fuel k : Nat) (tail : List Nat) {a b c d e f g : Int}
    (ha : fitsB 9 a = true) (hb : fitsB 9 b = true) (hc : fitsB 9 c = true)
    (hd : fitsB 9 d = true) (he : fitsB 9 e = true) (hf : fitsB 9 f = true)
    (hg : fitsB 9 g = true) :
    decodeDiffs (fuel + 1)
        (enc7x9val a b c d e f g / 2 ^ 32 ::
          enc7x9val a b c d e f g % 2 ^ 32 :: tail) (k + 7) =
      match decodeDiffs fuel tail k with
      | .error e => .error e
      | .ok ds => .ok (a :: b :: c :: d :: e :: f :: g :: ds) := by
  have h1 := toField_lt 9 a
  have h2 := toField_lt 9 b
  have h3 := toField_lt 9 c
  have h4 := toField_lt 9 d
  have h5 := toField_lt 9 e
  have h6 := toField_lt 9 f
  have h7 := toField_lt 9 g
  have hlt : enc7x9val a b c d e f g / 2 ^ 32 < 2 ^ 31 := by
    simp only [enc7x9val]; omega
  have hk : ¬ (k + 6 + 1 < 7) := by omega
  have hsub : k + 6 + 1 - 7 = k := by omega
  show decodeDiffs (fuel + 1) (_ :: _ :: tail) (k + 6 + 1) = _
  simp only [decodeDiffs, hlt, hk, hsub, eq_self_iff_true, if_true, if_false,
    ite_true, ite_false, dec7x9_enc ha hb hc hd he hf hg]
  rcases decodeDiffs fuel tail k with e | ds <;> simp

theorem decodeDiffs_enc3x10 (fuel k : Nat) (tail : List Nat) {a b c : Int}
    (ha : fitsB 10 a = true) (hb : fitsB 10 b = true) (hc : fitsB 10 c = true) :
    decodeDiffs (fuel + 1) (enc3x10 a b c :: tail) (k + 3) =
      match decodeDiffs fuel tail k with
      | .error e => .error e
      | .ok ds => .ok (a :: b :: c :: ds) := by
  have h1 := toField_lt 10 a
  have h2 := toField_lt 10 b
  have h3 := toField_lt 10 c
  have hge : ¬ enc3x10 a b c < 2 ^ 31 := by simp only [enc3x10]; omega
  have h30 : enc3x10 a b c / 2 ^ 30 = 2 := by simp only [enc3x10]; omega
  have hk : ¬ (k + 2 + 1 < 3) := by omega
  have hsub : k + 2 + 1 - 3 = k := by omega
  show decodeDiffs (fuel + 1) (enc3x10 a b c :: tail) (k + 2 + 1) = _
  simp only [decodeDiffs, hge, h30, hk, hsub, eq_self_iff_true, if_true,
    if_false, ite_true, ite_false, dec3x10_enc ha hb hc]
  rcases decodeDiffs fuel tail k with e | ds <;> simp

theorem decodeDiffs_enc2x14 (fuel k : Nat) (tail : List Nat) {a b : Int}
    (ha : fitsB 14 a = true) (hb : fitsB 14 b = true) :
    decodeDiffs (fuel + 1) (enc2x14 a b :: tail) (k + 2) =
      match decodeDiffs fuel tail k with
      | .error e => .error e
      | .ok ds => .ok (a :: b :: ds) := by
  have h1 := toField_lt 14 a
  have h2 := toField_lt 14 b
  have hge : ¬ enc2x14 a b < 2 ^ 31 := by simp only [enc2x14]; omega
  have h30 : ¬ enc2x14 a b / 2 ^ 30 = 2 := by simp only [enc2x14]; omega
  have h12 : ¬ enc2x14 a b / 2 ^ 28 = 12 := by simp only [enc2x14]; omega
  have h13 : enc2x14 a b / 2 ^ 28 = 13 := by simp only [enc2x14]; omega
  have hk : ¬ (k + 1 + 1 < 2) := by omega
  have hsub : k + 1 + 1 - 2 = k := by omega
  show decodeDiffs (fuel + 1) (enc2x14 a b :: tail) (k + 1 + 1) = _
  simp only [decodeDiffs, hge, h30, h12, h13, hk, hsub, eq_self_iff_true,
    if_true, if_false, ite_true, ite_false, dec2x14_enc ha hb]
  rcases decodeDiffs fuel tail k with e | ds <;> simp

theorem decodeDiffs_enc1x28 (fuel k : Nat) (tail : List Nat) {a : Int}
    (ha : fitsB 28 a = true) :
    decodeDiffs (fuel + 1) (enc1x28 a :: tail) (k + 1) =
      match decodeDiffs fuel tail k with
      | .error e => .error e
      | .ok ds => .ok (a :: ds) := by
  have h1 := toField_lt 28 a
  have hge : ¬ enc1x28 a < 2 ^ 31 := by simp only [enc1x28]; omega
  have h30 : ¬ enc1x28 a / 2 ^ 30 = 2 := by simp only [enc1x28]; omega
  have h12 : ¬ enc1x28 a / 2 ^ 28 = 12 := by simp only [enc1x28]; omega
  have h13 : ¬ enc1x28 a / 2 ^ 28 = 13 := by simp only [enc1x28]; omega
  have h14 : ¬ enc1x28 a / 2 ^ 28 = 14 := by simp only [enc1x28]; omega
  have hmod : enc1x28 a % 2 ^ 28 = toField 28 a := by simp only [enc1x28]; omega
  simp only [decodeDiffs, hge, h30, h12, h13, h14, hmod, eq_self_iff_true,
    if_true, if_false, ite_true, ite_false, fromField_toField (by norm_num) ha]

theorem decodeDiffs_escape (fuel k : Nat) (tail : List Nat) (a : Int) :
    decodeDiffs (fuel + 1) (escWord :: toField 32 a :: tail) (k + 1) =
      match decodeDiffs fuel tail k with
      | .error e => .error e
      | .ok ds => .ok (fromField 32 (toField 32 a) :: ds) := by
  have h1 := toField_lt 32 a
  have hge : ¬ escWord < 2 ^ 31 := by simp only [escWord]; omega
  have h30 : ¬ escWord / 2 ^ 30 = 2 := by simp only [escWord]; omega
  have h12 : ¬ escWord / 2 ^ 28 = 12 := by simp only [escWord]; omega
  have h13 : ¬ escWord / 2 ^ 28 = 13 := by simp only [escWord]; omega
  have h14 : escWord / 2 ^ 28 = 14 := by simp only [escWord]; omega
  have hmod : toField 32 a % 2 ^ 32 = toField 32 a := by omega
  simp only [decodeDiffs, hge, h30, h12, h13, h14, hmod, eq_self_iff_true,
    if_true, if_false, ite_true, ite_false]
  rcases decodeDiffs fuel tail k with e | ds <;> simp

theorem decodeDiffs_zero (fuel : Nat) (ws : List Nat) :
    decodeDiffs fuel ws 0 = .ok [] := by
  cases fuel <;> cases ws <;> rfl

theorem decodeDiffs_packDiffs :
    ∀ fuel : Nat, ∀ ds : List Int, ∀ dfuel : Nat,
      ds.length ≤ fuel → (packDiffs fuel ds).length < dfuel →
      ∃ es, decodeDiffs dfuel (packDiffs fuel ds) ds.length = .ok es ∧
        List.Forall₂ DiffEquiv ds es := by
  intro fuel
  induction fuel with
  | zero =>
    intro ds dfuel h1 _
    have hds : ds = [] := List.eq_nil_of_length_eq_zero (by omega)
    subst hds
    exact ⟨[], by simp [packDiffs, decodeDiffs_zero], List.Forall₂.nil⟩
  | succ n ih =>
    intro ds dfuel h1 h2
    rcases ds with _ | ⟨d0, rest⟩
    · exact ⟨[], by simp [packDiffs, decodeDiffs_zero], List.Forall₂.nil⟩
    rcases rest with _ | ⟨d1, rest1⟩
    · -- one difference left
      rcases dfuel with _ | df
      · exact absurd h2 (by omega)
      by_cases hc : fitsB 28 d0 = true
      · refine ⟨[d0], ?_, .cons (diffEquiv_refl _) .nil⟩
        have hstep := decodeDiffs_enc1x28 df 0 [] hc
        simp only [packDiffs, hc, if_true, ite_true]
        rw [show (List.length [d0]) = 0 + 1 by rfl, hstep, decodeDiffs_zero]
      · have hcf : fitsB 28 d0 = false := by simpa using hc
        refine ⟨[fromField 32 (toField 32 d0)], ?_, .cons (diffEquiv_escape _) .nil⟩
        have hstep := decodeDiffs_escape df 0 [] d0
        simp only [packDiffs, hcf, Bool.false_eq_true, if_false, ite_false]
        rw [show (List.length [d0]) = 0 + 1 by rfl, hstep, decodeDiffs_zero]
    rcases rest1 with _ | ⟨d2, rest2⟩
    · -- two differences left
      rcases dfuel with _ | df
      · exact absurd h2 (by omega)
      by_cases hc14 : (fitsB 14 d0 && fitsB 14 d1) = true
      · obtain ⟨f0, f1⟩ := by simpa [Bool.and_eq_true] using hc14
        obtain ⟨es, hdec, hrel⟩ := ih [] df (by simp only [List.length_cons, List.length_nil] at h1 ⊢; omega)
          (by simp only [packDiffs, hc14, if_true, ite_true, List.length_cons] at h2; omega)
        refine ⟨d0 :: d1 :: es, ?_, .cons (diffEquiv_refl _) (.cons (diffEquiv_refl _) hrel)⟩
        have hstep := decodeDiffs_enc2x14 df 0 (packDiffs n []) f0 f1
        simp only [packDiffs, hc14, if_true, ite_true]
        rw [show (List.length ([] : List Int)) = 0 from rfl] at hdec
        rw [show (List.length [d0, d1]) = 0 + 2 by rfl, hstep, hdec]
      · have hc14f : (fitsB 14 d0 && fitsB 14 d1) = false := by simpa using hc14
        by_cases hc : fitsB 28 d0 = true
        · obtain ⟨es, hdec, hrel⟩ := ih [d1] df (by simp only [List.length_cons, List.length_nil] at h1 ⊢; omega)
            (by simp only [packDiffs, hc14f, Bool.false_eq_true, if_false, ite_false,
              hc, if_true, ite_true, List.length_cons] at h2; omega)
          refine ⟨d0 :: es, ?_, .cons (diffEquiv_refl _) hrel⟩
          have hstep := decodeDiffs_enc1x28 df 1 (packDiffs n [d1]) hc
          simp only [packDiffs, hc14f, Bool.false_eq_true, if_false, ite_false, hc,
            if_true, ite_true]
          rw [show (List.length [d0, d1]) = 1 + 1 by rfl, hstep]
          rw [show (List.length [d1]) = 1 by rfl] at hdec
          rw [hdec]
        · have hcf : fitsB 28 d0 = false := by simpa using hc
          obtain ⟨es, hdec, hrel⟩ := ih [d1] df (by simp only [List.length_cons, List.length_nil] at h1 ⊢; omega)
            (by simp only [packDiffs, hc14f, Bool.false_eq_true, if_false, ite_false,
              hcf, List.length_cons] at h2; omega)
          refine ⟨fromField 32 (toField 32 d0) :: es, ?_,
            .cons (diffEquiv_escape _) hrel⟩
          have hstep := decodeDiffs_escape df 1 (packDiffs n [d1]) d0
          simp only [packDiffs, hc14f, Bool.false_eq_true, if_false, ite_false, hcf]
          rw [show (List.length [d0, d1]) = 1 + 1 by rfl, hstep]
          rw [show (List.length [d1]) = 1 by rfl] at hdec
          rw [hdec]
    rcases rest2 with _ | ⟨d3, rest3⟩
    · -- three differences left
      rcases dfuel with _ | df
      · exact absurd h2 (by omega)
      by_cases hc10 : (fitsB 10 d0 && fitsB 10 d1 && fitsB 10 d2) = true
      · obtain ⟨⟨f0, f1⟩, f2⟩ := by simpa [Bool.and_eq_true] using hc10
        obtain ⟨es, hdec, hrel⟩ := ih [] df (by simp only [List.length_cons, List.length_nil] at h1 ⊢; omega)
          (by simp only [packDiffs, hc10, if_true, ite_true, List.length_cons] at h2; omega)
        refine ⟨d0 :: d1 :: d2 :: es, ?_, .cons (diffEquiv_refl _)
          (.cons (diffEquiv_refl _) (.cons (diffEquiv_refl _) hrel))⟩
        have hstep := decodeDiffs_enc3x10 df 0 (packDiffs n []) f0 f1 f2
        simp only [packDiffs, hc10, if_true, ite_true]
        rw [show (List.length ([] : List Int)) = 0 from rfl] at hdec
        rw [show (List.length [d0, d1, d2]) = 0 + 3 by rfl, hstep, hdec]
      · have hc10f : (fitsB 10 d0 && fitsB 10 d1 && fitsB 10 d2) = false := by simpa using hc10
        by_cases hc14 : (fitsB 14 d0 && fitsB 14 d1) = true
        · obtain ⟨f0, f1⟩ := by simpa [Bool.and_eq_true] using hc14
          obtain ⟨es, hdec, hrel⟩ := ih [d2] df (by simp only [List.length_cons, List.length_nil] at h1 ⊢; omega)
            (by simp only [packDiffs, hc10f, Bool.false_eq_true, if_false, ite_false,
              hc14, if_true, ite_true, List.length_cons] at h2; omega)
          refine ⟨d0 :: d1 :: es, ?_, .cons (diffEquiv_refl _)
            (.cons (diffEquiv_refl _) hrel)⟩
          have hstep := decodeDiffs_enc2x14 df 1 (packDiffs n [d2]) f0 f1
          simp only [packDiffs, hc10f, Bool.false_eq_true, if_false, ite_false,
            hc14, if_true, ite_true]
          rw [show (List.length [d0, d1, d2]) = 1 + 2 by rfl, hstep]
          rw [show (List.length [d2]) = 1 by rfl] at hdec
          rw [hdec]
        · have hc14f : (fitsB 14 d0 && fitsB 14 d1) = false := by simpa using hc14
          by_cases hc : fitsB 28 d0 = true
          · obtain ⟨es, hdec, hrel⟩ := ih [d1, d2] df (by simp only [List.length_cons, List.length_nil] at h1 ⊢; omega)
              (by simp only [packDiffs, hc10f, hc14f, Bool.false_eq_true, if_false,
                ite_false, hc, if_true, ite_true, List.length_cons] at h2; omega)
            refine ⟨d0 :: es, ?_, .cons (diffEquiv_refl _) hrel⟩
            have hstep := decodeDiffs_enc1x28 df 2 (packDiffs n [d1, d2]) hc
            simp only [packDiffs, hc10f, hc14f, Bool.false_eq_true, if_false,
              ite_false, hc, if_true, ite_true]
            rw [show (List.length [d0, d1, d2]) = 2 + 1 by rfl, hstep]
            rw [show (List.length [d1, d2]) = 2 by rfl] at hdec
            rw [hdec]
          · have hcf : fitsB 28 d0 = false := by simpa using hc
            obtain ⟨es, hdec, hrel⟩ := ih [d1, d2] df (by simp only [List.length_cons, List.length_nil] at h1 ⊢; omega)
              (by simp only [packDiffs, hc10f, hc14f, hcf, Bool.false_eq_true,
                if_false, ite_false, List.length_cons] at h2; omega)
            refine ⟨fromField 32 (toField 32 d0) :: es, ?_,
              .cons (diffEquiv_escape _) hrel⟩
            have hstep := decodeDiffs_escape df 2 (packDiffs n [d1, d2]) d0
            simp only [packDiffs, hc10f, hc14f, hcf, Bool.false_eq_true, if_false,
              ite_false]
            rw [show (List.length [d0, d1, d2]) = 2 + 1 by rfl, hstep]
            rw [show (List.length [d1, d2]) = 2 by rfl] at hdec
            rw [hdec]
    rcases rest3 with _ | ⟨d4, rest4⟩
    · -- four differences left
      rcases dfuel with _ | df
      · exact absurd h2 (by omega)
      by_cases hc7 : (fitsB 7 d0 && fitsB 7 d1 && fitsB 7 d2 && fitsB 7 d3) = true
      · obtain ⟨⟨⟨f0, f1⟩, f2⟩, f3⟩ := by simpa [Bool.and_eq_true] using hc7
        obtain ⟨es, hdec, hrel⟩ := ih [] df (by simp only [List.length_cons, List.length_nil] at h1 ⊢; omega)
          (by simp only [packDiffs, hc7, if_true, ite_true, List.length_cons] at h2; omega)
        refine ⟨d0 :: d1 :: d2 :: d3 :: es, ?_, .cons (diffEquiv_refl _)
          (.cons (diffEquiv_refl _) (.cons (diffEquiv_refl _)
            (.cons (diffEquiv_refl _) hrel)))⟩
        have hstep := decodeDiffs_enc4x7 df 0 (packDiffs n []) f0 f1 f2 f3
        simp only [packDiffs, hc7, if_true, ite_true]
        rw [show (List.length ([] : List Int)) = 0 from rfl] at hdec
        rw [show (List.length [d0, d1, d2, d3]) = 0 + 4 by rfl, hstep, hdec]
      · have hc7f : (fitsB 7 d0 && fitsB 7 d1 && fitsB 7 d2 && fitsB 7 d3) = false := by simpa using hc7
        by_cases hc10 : (fitsB 10 d0 && fitsB 10 d1 && fitsB 10 d2) = true
        · obtain ⟨⟨f0, f1⟩, f2⟩ := by simpa [Bool.and_eq_true] using hc10
          obtain ⟨es, hdec, hrel⟩ := ih [d3] df (by simp only [List.length_cons, List.length_nil] at h1 ⊢; omega)
            (by simp only [packDiffs, hc7f, Bool.false_eq_true, if_false, ite_false,
              hc10, if_true, ite_true, List.length_cons] at h2; omega)
          refine ⟨d0 :: d1 :: d2 :: es, ?_, .cons (diffEquiv_refl _)
            (.cons (diffEquiv_refl _) (.cons (diffEquiv_refl _) hrel))⟩
          have hstep := decodeDiffs_enc3x10 df 1 (packDiffs n [d3]) f0 f1 f2
          simp only [packDiffs, hc7f, Bool.false_eq_true, if_false, ite_false,
            hc10, if_true, ite_true]
          rw [show (List.length [d0, d1, d2, d3]) = 1 + 3 by rfl, hstep]
          rw [show (List.length [d3]) = 1 by rfl] at hdec
          rw [hdec]
        · have hc10f : (fitsB 10 d0 && fitsB 10 d1 && fitsB 10 d2) = false := by simpa using hc10
          by_cases hc14 : (fitsB 14 d0 && fitsB 14 d1) = true
          · obtain ⟨f0, f1⟩ := by simpa [Bool.and_eq_true] using hc14
            obtain ⟨es, hdec, hrel⟩ := ih [d2, d3] df (by simp only [List.length_cons, List.length_nil] at h1 ⊢; omega)
              (by simp only [packDiffs, hc7f, hc10f, Bool.false_eq_true, if_false,
                ite_false, hc14, if_true, ite_true, List.length_cons] at h2; omega)
            refine ⟨d0 :: d1 :: es, ?_, .cons (diffEquiv_refl _)
              (.cons (diffEquiv_refl _) hrel)⟩
            have hstep := decodeDiffs_enc2x14 df 2 (packDiffs n [d2, d3]) f0 f1
            simp only [packDiffs, hc7f, hc10f, Bool.false_eq_true, if_false,
              ite_false, hc14, if_true, ite_true]
            rw [show (List.length [d0, d1, d2, d3]) = 2 + 2 by rfl, hstep]
            rw [show (List.length [d2, d3]) = 2 by rfl] at hdec
            rw [hdec]
          · have hc14f : (fitsB 14 d0 && fitsB 14 d1) = false := by simpa using hc14
            by_cases hc : fitsB 28 d0 = true
            · obtain ⟨es, hdec, hrel⟩ := ih [d1, d2, d3] df (by simp only [List.length_cons, List.length_nil] at h1 ⊢; omega)
                (by simp only [packDiffs, hc7f, hc10f, hc14f, Bool.false_eq_true,
                  if_false, ite_false, hc, if_true, ite_true, List.length_cons] at h2; omega)
              refine ⟨d0 :: es, ?_, .cons (diffEquiv_refl _) hrel⟩
              have hstep := decodeDiffs_enc1x28 df 3 (packDiffs n [d1, d2, d3]) hc
              simp only [packDiffs, hc7f, hc10f, hc14f, Bool.false_eq_true,
                if_false, ite_false, hc, if_true, ite_true]
              rw [show (List.length [d0, d1, d2, d3]) = 3 + 1 by rfl, hstep]
              rw [show (List.length [d1, d2, d3]) = 3 by rfl] at hdec
              rw [hdec]
            · have hcf : fitsB 28 d0 = false := by simpa using hc
              obtain ⟨es, hdec, hrel⟩ := ih [d1, d2, d3] df (by simp only [List.length_cons, List.length_nil] at h1 ⊢; omega)
                (by simp only [packDiffs, hc7f, hc10f, hc14f, hcf, Bool.false_eq_true,
                  if_false, ite_false, List.length_cons] at h2; omega)
              refine ⟨fromField 32 (toField 32 d0) :: es, ?_,
                .cons (diffEquiv_escape _) hrel⟩
              have hstep := decodeDiffs_escape df 3 (packDiffs n [d1, d2, d3]) d0
              simp only [packDiffs, hc7f, hc10f, hc14f, hcf, Bool.false_eq_true,
                if_false, ite_false]
              rw [show (List.length [d0, d1, d2, d3]) = 3 + 1 by rfl, hstep]
              rw [show (List.length [d1, d2, d3]) = 3 by rfl] at hdec
              rw [hdec]
    rcases rest4 with _ | ⟨d5, rest5⟩
    · -- five differences left
      rcases dfuel with _ | df
      · exact absurd h2 (by omega)
      by_cases hc7 : (fitsB 7 d0 && fitsB 7 d1 && fitsB 7 d2 && fitsB 7 d3) = true
      · obtain ⟨⟨⟨f0, f1⟩, f2⟩, f3⟩ := by simpa [Bool.and_eq_true] using hc7
        obtain ⟨es, hdec, hrel⟩ := ih [d4] df (by simp only [List.length_cons, List.length_nil] at h1 ⊢; omega)
          (by simp only [packDiffs, hc7, if_true, ite_true, List.length_cons] at h2; omega)
        refine ⟨d0 :: d1 :: d2 :: d3 :: es, ?_, .cons (diffEquiv_refl _)
          (.cons (diffEquiv_refl _) (.cons (diffEquiv_refl _)
            (.cons (diffEquiv_refl _) hrel)))⟩
        have hstep := decodeDiffs_enc4x7 df 1 (packDiffs n [d4]) f0 f1 f2 f3
        simp only [packDiffs, hc7, if_true, ite_true]
        rw [show (List.length [d0, d1, d2, d3, d4]) = 1 + 4 by rfl, hstep]
        rw [show (List.length [d4]) = 1 by rfl] at hdec
        rw [hdec]
      · have hc7f : (fitsB 7 d0 && fitsB 7 d1 && fitsB 7 d2 && fitsB 7 d3) = false := by simpa using hc7
        by_cases hc10 : (fitsB 10 d0 && fitsB 10 d1 && fitsB 10 d2) = true
        · obtain ⟨⟨f0, f1⟩, f2⟩ := by simpa [Bool.and_eq_true] using hc10
          obtain ⟨es, hdec, hrel⟩ := ih [d3, d4] df (by simp only [List.length_cons, List.length_nil] at h1 ⊢; omega)
            (by simp only [packDiffs, hc7f, Bool.false_eq_true, if_false, ite_false,
              hc10, if_true, ite_true, List.length_cons] at h2; omega)
          refine ⟨d0 :: d1 :: d2 :: es, ?_, .cons (diffEquiv_refl _)
            (.cons (diffEquiv_refl _) (.cons (diffEquiv_refl _) hrel))⟩
          have hstep := decodeDiffs_enc3x10 df 2 (packDiffs n [d3, d4]) f0 f1 f2
          simp only [packDiffs, hc7f, Bool.false_eq_true, if_false, ite_false,
            hc10, if_true, ite_true]
          rw [show (List.length [d0, d1, d2, d3, d4]) = 2 + 3 by rfl, hstep]
          rw [show (List.length [d3, d4]) = 2 by rfl] at hdec
          rw [hdec]
        · have hc10f : (fitsB 10 d0 && fitsB 10 d1 && fitsB 10 d2) = false := by simpa using hc10
          by_cases hc14 : (fitsB 14 d0 && fitsB 14 d1) = true
          · obtain ⟨f0, f1⟩ := by simpa [Bool.and_eq_true] using hc14
            obtain ⟨es, hdec, hrel⟩ := ih [d2, d3, d4] df (by simp only [List.length_cons, List.length_nil] at h1 ⊢; omega)
              (by simp only [packDiffs, hc7f, hc10f, Bool.false_eq_true, if_false,
                ite_false, hc14, if_true, ite_true, List.length_cons] at h2; omega)
            refine ⟨d0 :: d1 :: es, ?_, .cons (diffEquiv_refl _)
              (.cons (diffEquiv_refl _) hrel)⟩
            have hstep := decodeDiffs_enc2x14 df 3 (packDiffs n [d2, d3, d4]) f0 f1
            simp only [packDiffs, hc7f, hc10f, Bool.false_eq_true, if_false,
              ite_false, hc14, if_true, ite_true]
            rw [show (List.length [d0, d1, d2, d3, d4]) = 3 + 2 by rfl, hstep]
            rw [show (List.length [d2, d3, d4]) = 3 by rfl] at hdec
            rw [hdec]
          · have hc14f : (fitsB 14 d0 && fitsB 14 d1) = false := by simpa using hc14
            by_cases hc : fitsB 28 d0 = true
            · obtain ⟨es, hdec, hrel⟩ := ih [d1, d2, d3, d4] df (by simp only [List.length_cons, List.length_nil] at h1 ⊢; omega)
                (by simp only [packDiffs, hc7f, hc10f, hc14f, Bool.false_eq_true,
                  if_false, ite_false, hc, if_true, ite_true, List.length_cons] at h2; omega)
              refine ⟨d0 :: es, ?_, .cons (diffEquiv_refl _) hrel⟩
              have hstep := decodeDiffs_enc1x28 df 4 (packDiffs n [d1, d2, d3, d4]) hc
              simp only [packDiffs, hc7f, hc10f, hc14f, Bool.false_eq_true,
                if_false, ite_false, hc, if_true, ite_true]
              rw [show (List.length [d0, d1, d2, d3, d4]) = 4 + 1 by rfl, hstep]
              rw [show (List.length [d1, d2, d3, d4]) = 4 by rfl] at hdec
              rw [hdec]
            · have hcf : fitsB 28 d0 = false := by simpa using hc
              obtain ⟨es, hdec, hrel⟩ := ih [d1, d2, d3, d4] df (by simp only [List.length_cons, List.length_nil] at h1 ⊢; omega)
                (by simp only [packDiffs, hc7f, hc10f, hc14f, hcf, Bool.false_eq_true,
                  if_false, ite_false, List.length_cons] at h2; omega)
              refine ⟨fromField 32 (toField 32 d0) :: es, ?_,
                .cons (diffEquiv_escape _) hrel⟩
              have hstep := decodeDiffs_escape df 4 (packDiffs n [d1, d2, d3, d4]) d0
              simp only [packDiffs, hc7f, hc10f, hc14f, hcf, Bool.false_eq_true,
                if_false, ite_false]
              rw [show (List.length [d0, d1, d2, d3, d4]) = 4 + 1 by rfl, hstep]
              rw [show (List.length [d1, d2, d3, d4]) = 4 by rfl] at hdec
              rw [hdec]
    rcases rest5 with _ | ⟨d6, rest6⟩
    · -- six differences left
      rcases dfuel with _ | df
      · exact absurd h2 (by omega)
      by_cases hc7 : (fitsB 7 d0 && fitsB 7 d1 && fitsB 7 d2 && fitsB 7 d3) = true
      · obtain ⟨⟨⟨f0, f1⟩, f2⟩, f3⟩ := by simpa [Bool.and_eq_true] using hc7
        obtain ⟨es, hdec, hrel⟩ := ih [d4, d5] df (by simp only [List.length_cons, List.length_nil] at h1 ⊢; omega)
          (by simp only [packDiffs, hc7, if_true, ite_true, List.length_cons] at h2; omega)
        refine ⟨d0 :: d1 :: d2 :: d3 :: es, ?_, .cons (diffEquiv_refl _)
          (.cons (diffEquiv_refl _) (.cons (diffEquiv_refl _)
            (.cons (diffEquiv_refl _) hrel)))⟩
        have hstep := decodeDiffs_enc4x7 df 2 (packDiffs n [d4, d5]) f0 f1 f2 f3
        simp only [packDiffs, hc7, if_true, ite_true]
        rw [show (List.length [d0, d1, d2, d3, d4, d5]) = 2 + 4 by rfl, hstep]
        rw [show (List.length [d4, d5]) = 2 by rfl] at hdec
        rw [hdec]
      · have hc7f : (fitsB 7 d0 && fitsB 7 d1 && fitsB 7 d2 && fitsB 7 d3) = false := by simpa using hc7
        by_cases hc10 : (fitsB 10 d0 && fitsB 10 d1 && fitsB 10 d2) = true
        · obtain ⟨⟨f0, f1⟩, f2⟩ := by simpa [Bool.and_eq_true] using hc10
          obtain ⟨es, hdec, hrel⟩ := ih [d3, d4, d5] df (by simp only [List.length_cons, List.length_nil] at h1 ⊢; omega)
            (by simp only [packDiffs, hc7f, Bool.false_eq_true, if_false, ite_false,
              hc10, if_true, ite_true, List.length_cons] at h2; omega)
          refine ⟨d0 :: d1 :: d2 :: es, ?_, .cons (diffEquiv_refl _)
            (.cons (diffEquiv_refl _) (.cons (diffEquiv_refl _) hrel))⟩
          have hstep := decodeDiffs_enc3x10 df 3 (packDiffs n [d3, d4, d5]) f0 f1 f2
          simp only [packDiffs, hc7f, Bool.false_eq_true, if_false, ite_false,
            hc10, if_true, ite_true]
          rw [show (List.length [d0, d1, d2, d3, d4, d5]) = 3 + 3 by rfl, hstep]
          rw [show (List.length [d3, d4, d5]) = 3 by rfl] at hdec
          rw [hdec]
        · have hc10f : (fitsB 10 d0 && fitsB 10 d1 && fitsB 10 d2) = false := by simpa using hc10
          by_cases hc14 : (fitsB 14 d0 && fitsB 14 d1) = true
          · obtain ⟨f0, f1⟩ := by simpa [Bool.and_eq_true] using hc14
            obtain ⟨es, hdec, hrel⟩ := ih [d2, d3, d4, d5] df (by simp only [List.length_cons, List.length_nil] at h1 ⊢; omega)
              (by simp only [packDiffs, hc7f, hc10f, Bool.false_eq_true, if_false,
                ite_false, hc14, if_true, ite_true, List.length_cons] at h2; omega)
            refine ⟨d0 :: d1 :: es, ?_, .cons (diffEquiv_refl _)
              (.cons (diffEquiv_refl _) hrel)⟩
            have hstep := decodeDiffs_enc2x14 df 4 (packDiffs n [d2, d3, d4, d5]) f0 f1
            simp only [packDiffs, hc7f, hc10f, Bool.false_eq_true, if_false,
              ite_false, hc14, if_true, ite_true]
            rw [show (List.length [d0, d1, d2, d3, d4, d5]) = 4 + 2 by rfl, hstep]
            rw [show (List.length [d2, d3, d4, d5]) = 4 by rfl] at hdec
            rw [hdec]
          · have hc14f : (fitsB 14 d0 && fitsB 14 d1) = false := by simpa using hc14
            by_cases hc : fitsB 28 d0 = true
            · obtain ⟨es, hdec, hrel⟩ := ih [d1, d2, d3, d4, d5] df (by simp only [List.length_cons, List.length_nil] at h1 ⊢; omega)
                (by simp only [packDiffs, hc7f, hc10f, hc14f, Bool.false_eq_true,
                  if_false, ite_false, hc, if_true, ite_true, List.length_cons] at h2; omega)
              refine ⟨d0 :: es, ?_, .cons (diffEquiv_refl _) hrel⟩
              have hstep := decodeDiffs_enc1x28 df 5 (packDiffs n [d1, d2, d3, d4, d5]) hc
              simp only [packDiffs, hc7f, hc10f, hc14f, Bool.false_eq_true,
                if_false, ite_false, hc, if_true, ite_true]
              rw [show (List.length [d0, d1, d2, d3, d4, d5]) = 5 + 1 by rfl, hstep]
              rw [show (List.length [d1, d2, d3, d4, d5]) = 5 by rfl] at hdec
              rw [hdec]
            · have hcf : fitsB 28 d0 = false := by simpa using hc
              obtain ⟨es, hdec, hrel⟩ := ih [d1, d2, d3, d4, d5] df (by simp only [List.length_cons, List.length_nil] at h1 ⊢; omega)
                (by simp only [packDiffs, hc7f, hc10f, hc14f, hcf, Bool.false_eq_true,
                  if_false, ite_false, List.length_cons] at h2; omega)
              refine ⟨fromField 32 (toField 32 d0) :: es, ?_,
                .cons (diffEquiv_escape _) hrel⟩
              have hstep := decodeDiffs_escape df 5 (packDiffs n [d1, d2, d3, d4, d5]) d0
              simp only [packDiffs, hc7f, hc10f, hc14f, hcf, Bool.false_eq_true,
                if_false, ite_false]
              rw [show (List.length [d0, d1, d2, d3, d4, d5]) = 5 + 1 by rfl, hstep]
              rw [show (List.length [d1, d2, d3, d4, d5]) = 5 by rfl] at hdec
              rw [hdec]
    -- seven or more differences left
    rcases dfuel with _ | df
    · exact absurd h2 (by omega)
    by_cases hc7 : (fitsB 7 d0 && fitsB 7 d1 && fitsB 7 d2 && fitsB 7 d3) = true
    · obtain ⟨⟨⟨f0, f1⟩, f2⟩, f3⟩ := by simpa [Bool.and_eq_true] using hc7
      obtain ⟨es, hdec, hrel⟩ := ih (d4 :: d5 :: d6 :: rest6) df
        (by simp only [List.length_cons, List.length_nil] at h1 ⊢; omega)
        (by simp only [packDiffs, hc7, if_true, ite_true, List.length_cons] at h2; omega)
      refine ⟨d0 :: d1 :: d2 :: d3 :: es, ?_, .cons (diffEquiv_refl _)
        (.cons (diffEquiv_refl _) (.cons (diffEquiv_refl _)
          (.cons (diffEquiv_refl _) hrel)))⟩
      have hstep := decodeDiffs_enc4x7 df (List.length (d4 :: d5 :: d6 :: rest6))
        (packDiffs n (d4 :: d5 :: d6 :: rest6)) f0 f1 f2 f3
      simp only [packDiffs, hc7, if_true, ite_true]
      rw [show (List.length (d0 :: d1 :: d2 :: d3 :: d4 :: d5 :: d6 :: rest6)) =
        (List.length (d4 :: d5 :: d6 :: rest6)) + 4 by simp, hstep, hdec]
    · have hc7f : (fitsB 7 d0 && fitsB 7 d1 && fitsB 7 d2 && fitsB 7 d3) = false := by simpa using hc7
      by_cases hc9 : (fitsB 9 d0 && fitsB 9 d1 && fitsB 9 d2 && fitsB 9 d3 &&
          fitsB 9 d4 && fitsB 9 d5 && fitsB 9 d6) = true
      · obtain ⟨⟨⟨⟨⟨⟨f0, f1⟩, f2⟩, f3⟩, f4⟩, f5⟩, f6⟩ :=
          by simpa [Bool.and_eq_true] using hc9
        obtain ⟨es, hdec, hrel⟩ := ih rest6 df
          (by simp only [List.length_cons, List.length_nil] at h1 ⊢; omega)
          (by simp only [packDiffs, hc7f, Bool.false_eq_true, if_false, ite_false,
            hc9, if_true, ite_true, List.length_cons] at h2; omega)
        refine ⟨d0 :: d1 :: d2 :: d3 :: d4 :: d5 :: d6 :: es, ?_,
          .cons (diffEquiv_refl _) (.cons (diffEquiv_refl _)
            (.cons (diffEquiv_refl _) (.cons (diffEquiv_refl _)
              (.cons (diffEquiv_refl _) (.cons (diffEquiv_refl _)
                (.cons (diffEquiv_refl _) hrel))))))⟩
        have hstep := decodeDiffs_enc7x9 df (List.length rest6)
          (packDiffs n rest6) f0 f1 f2 f3 f4 f5 f6
        simp only [packDiffs, hc7f, Bool.false_eq_true, if_false, ite_false,
          hc9, if_true, ite_true]
        rw [show (List.length (d0 :: d1 :: d2 :: d3 :: d4 :: d5 :: d6 :: rest6)) =
          (List.length rest6) + 7 by simp, hstep, hdec]
      · have hc9f : (fitsB 9 d0 && fitsB 9 d1 && fitsB 9 d2 && fitsB 9 d3 && fitsB 9 d4 && fitsB 9 d5 && fitsB 9 d6) = false := by simpa using hc9
        by_cases hc10 : (fitsB 10 d0 && fitsB 10 d1 && fitsB 10 d2) = true
        · obtain ⟨⟨f0, f1⟩, f2⟩ := by simpa [Bool.and_eq_true] using hc10
          obtain ⟨es, hdec, hrel⟩ := ih (d3 :: d4 :: d5 :: d6 :: rest6) df
            (by simp only [List.length_cons, List.length_nil] at h1 ⊢; omega)
            (by simp only [packDiffs, hc7f, hc9f, Bool.false_eq_true, if_false,
              ite_false, hc10, if_true, ite_true, List.length_cons] at h2; omega)
          refine ⟨d0 :: d1 :: d2 :: es, ?_, .cons (diffEquiv_refl _)
            (.cons (diffEquiv_refl _) (.cons (diffEquiv_refl _) hrel))⟩
          have hstep := decodeDiffs_enc3x10 df (List.length (d3 :: d4 :: d5 :: d6 :: rest6))
            (packDiffs n (d3 :: d4 :: d5 :: d6 :: rest6)) f0 f1 f2
          simp only [packDiffs, hc7f, hc9f, Bool.false_eq_true, if_false,
            ite_false, hc10, if_true, ite_true]
          rw [show (List.length (d0 :: d1 :: d2 :: d3 :: d4 :: d5 :: d6 :: rest6)) =
            (List.length (d3 :: d4 :: d5 :: d6 :: rest6)) + 3 by simp, hstep, hdec]
        · have hc10f : (fitsB 10 d0 && fitsB 10 d1 && fitsB 10 d2) = false := by simpa using hc10
          by_cases hc14 : (fitsB 14 d0 && fitsB 14 d1) = true
          · obtain ⟨f0, f1⟩ := by simpa [Bool.and_eq_true] using hc14
            obtain ⟨es, hdec, hrel⟩ := ih (d2 :: d3 :: d4 :: d5 :: d6 :: rest6) df
              (by simp only [List.length_cons, List.length_nil] at h1 ⊢; omega)
              (by simp only [packDiffs, hc7f, hc9f, hc10f, Bool.false_eq_true,
                if_false, ite_false, hc14, if_true, ite_true, List.length_cons] at h2; omega)
            refine ⟨d0 :: d1 :: es, ?_, .cons (diffEquiv_refl _)
              (.cons (diffEquiv_refl _) hrel)⟩
            have hstep := decodeDiffs_enc2x14 df
              (List.length (d2 :: d3 :: d4 :: d5 :: d6 :: rest6))
              (packDiffs n (d2 :: d3 :: d4 :: d5 :: d6 :: rest6)) f0 f1
            simp only [packDiffs, hc7f, hc9f, hc10f, Bool.false_eq_true, if_false,
              ite_false, hc14, if_true, ite_true]
            rw [show (List.length (d0 :: d1 :: d2 :: d3 :: d4 :: d5 :: d6 :: rest6)) =
              (List.length (d2 :: d3 :: d4 :: d5 :: d6 :: rest6)) + 2 by simp, hstep, hdec]
          · have hc14f : (fitsB 14 d0 && fitsB 14 d1) = false := by simpa using hc14
            by_cases hc : fitsB 28 d0 = true
            · obtain ⟨es, hdec, hrel⟩ := ih (d1 :: d2 :: d3 :: d4 :: d5 :: d6 :: rest6) df
                (by simp only [List.length_cons, List.length_nil] at h1 ⊢; omega)
                (by simp only [packDiffs, hc7f, hc9f, hc10f, hc14f, Bool.false_eq_true,
                  if_false, ite_false, hc, if_true, ite_true, List.length_cons] at h2; omega)
              refine ⟨d0 :: es, ?_, .cons (diffEquiv_refl _) hrel⟩
              have hstep := decodeDiffs_enc1x28 df
                (List.length (d1 :: d2 :: d3 :: d4 :: d5 :: d6 :: rest6))
                (packDiffs n (d1 :: d2 :: d3 :: d4 :: d5 :: d6 :: rest6)) hc
              simp only [packDiffs, hc7f, hc9f, hc10f, hc14f, Bool.false_eq_true,
                if_false, ite_false, hc, if_true, ite_true]
              rw [show (List.length (d0 :: d1 :: d2 :: d3 :: d4 :: d5 :: d6 :: rest6)) =
                (List.length (d1 :: d2 :: d3 :: d4 :: d5 :: d6 :: rest6)) + 1 by simp,
                hstep, hdec]
            · have hcf : fitsB 28 d0 = false := by simpa using hc
              obtain ⟨es, hdec, hrel⟩ := ih (d1 :: d2 :: d3 :: d4 :: d5 :: d6 :: rest6) df
                (by simp only [List.length_cons, List.length_nil] at h1 ⊢; omega)
                (by simp only [packDiffs, hc7f, hc9f, hc10f, hc14f, hcf,
                  Bool.false_eq_true, if_false, ite_false, List.length_cons] at h2; omega)
              refine ⟨fromField 32 (toField 32 d0) :: es, ?_,
                .cons (diffEquiv_escape _) hrel⟩
              have hstep := decodeDiffs_escape df
                (List.length (d1 :: d2 :: d3 :: d4 :: d5 :: d6 :: rest6))
                (packDiffs n (d1 :: d2 :: d3 :: d4 :: d5 :: d6 :: rest6)) d0
              simp only [packDiffs, hc7f, hc9f, hc10f, hc14f, hcf,
                Bool.false_eq_true, if_false, ite_false]
              rw [show (List.length (d0 :: d1 :: d2 :: d3 :: d4 :: d5 :: d6 :: rest6)) =
                (List.length (d1 :: d2 :: d3 :: d4 :: d5 :: d6 :: rest6)) + 1 by simp,
                hstep, hdec]

/-! ### Integration lemmas -/

/-- The signed 32-bit range of a sample. -/
def int32 (x : Int) : Prop := -(2 ^ 31) ≤ x ∧ x < 2 ^ 31

instance (x : Int) : Decidable (int32 x) :=
  inferInstanceAs (Decidable (-(2 ^ 31) ≤ x ∧ x < 2 ^ 31))

theorem integrate_equiv {ds es : List Int} (h : List.Forall₂ DiffEquiv ds es) :
    ∀ prev : Int, integrate prev es = integrate prev ds := by
  induction h with
  | nil => intro prev; rfl
  | cons hde _ ih =>
    intro prev
    simp only [integrate, hde prev, ih]

theorem integrate_diffsFrom : ∀ (chunk : List Int) (prev : Int),
    (∀ x ∈ chunk, int32 x) → integrate prev (diffsFrom prev chunk) = chunk := by
  intro chunk
  induction chunk with
  | nil => intro prev _; rfl
  | cons c cs ih =>
    intro prev h
    have hc : int32 c := h c (by simp)
    simp only [diffsFrom, integrate, show prev + (c - prev) = c by ring,
      wrap32_eq_self hc.1 hc.2]
    exact congrArg _ (ih c fun x hx => h x (by simp [hx]))

theorem diffsFrom_length : ∀ (chunk : List Int) (prev : Int),
    (diffsFrom prev chunk).length = chunk.length := by
  intro chunk
  induction chunk with
  | nil => intro prev; rfl
  | cons c cs ih => intro prev; simp [diffsFrom, ih]

/-! ### Bounds on the packed words -/

theorem packDiffs_length_le : ∀ fuel ds, (packDiffs fuel ds).length ≤ 2 * ds.length := by
  intro fuel
  induction fuel with
  | zero => intro ds; simp [packDiffs]
  | succ n ih =>
    intro ds
    rcases ds with _ | ⟨d0, rest⟩
    · simp [packDiffs]
    rcases rest with _ | ⟨d1, r1⟩
    · simp only [packDiffs]
      split_ifs <;> simp
    rcases r1 with _ | ⟨d2, r2⟩
    · have i1 := ih [d1]
      have i2 := ih []
      simp only [packDiffs]
      split_ifs <;>
        simp only [List.length_cons, List.length_nil] at i1 i2 ⊢ <;> omega
    rcases r2 with _ | ⟨d3, r3⟩
    · have i1 := ih []
      have i2 := ih [d2]
      have i3 := ih [d1, d2]
      simp only [packDiffs]
      split_ifs <;>
        simp only [List.length_cons, List.length_nil] at i1 i2 i3 ⊢ <;> omega
    rcases r3 with _ | ⟨d4, r4⟩
    · have i1 := ih []
      have i2 := ih [d3]
      have i3 := ih [d2, d3]
      have i4 := ih [d1, d2, d3]
      simp only [packDiffs]
      split_ifs <;>
        simp only [List.length_cons, List.length_nil] at i1 i2 i3 i4 ⊢ <;> omega
    rcases r4 with _ | ⟨d5, r5⟩
    · have i1 := ih [d4]
      have i2 := ih [d3, d4]
      have i3 := ih [d2, d3, d4]
      have i4 := ih [d1, d2, d3, d4]
      simp only [packDiffs]
      split_ifs <;>
        simp only [List.length_cons, List.length_nil] at i1 i2 i3 i4 ⊢ <;> omega
    rcases r5 with _ | ⟨d6, r6⟩
    · have i1 := ih [d4, d5]
      have i2 := ih [d3, d4, d5]
      have i3 := ih [d2, d3, d4, d5]
      have i4 := ih [d1, d2, d3, d4, d5]
      simp only [packDiffs]
      split_ifs <;>
        simp only [List.length_cons, List.length_nil] at i1 i2 i3 i4 ⊢ <;> omega
    have i1 := ih (d4 :: d5 :: d6 :: r6)
    have i2 := ih r6
    have i3 := ih (d3 :: d4 :: d5 :: d6 :: r6)
    have i4 := ih (d2 :: d3 :: d4 :: d5 :: d6 :: r6)
    have i5 := ih (d1 :: d2 :: d3 :: d4 :: d5 :: d6 :: r6)
    simp only [packDiffs]
    split_ifs <;>
      simp only [List.length_cons, List.length_nil] at i1 i2 i3 i4 i5 ⊢ <;> omega

theorem enc4x7_lt (a b c d : Int) : enc4x7 a b c d < 2 ^ 32 := by
  have h1 := toField_lt 7 a
  have h2 := toField_lt 7 b
  have h3 := toField_lt 7 c
  have h4 := toField_lt 7 d
  simp only [enc4x7]; omega

theorem enc7x9hi_lt (a b c d e f g : Int) :
    enc7x9val a b c d e f g / 2 ^ 32 < 2 ^ 32 := by
  have h1 := toField_lt 9 a
  have h2 := toField_lt 9 b
  have h3 := toField_lt 9 c
  have h4 := toField_lt 9 d
  have h5 := toField_lt 9 e
  have h6 := toField_lt 9 f
  have h7 := toField_lt 9 g
  simp only [enc7x9val]; omega

theorem enc3x10_lt (a b c : Int) : enc3x10 a b c < 2 ^ 32 := by
  have h1 := toField_lt 10 a
  have h2 := toField_lt 10 b
  have h3 := toField_lt 10 c
  simp only [enc3x10]; omega

theorem enc2x14_lt (a b : Int) : enc2x14 a b < 2 ^ 32 := by
  have h1 := toField_lt 14 a
  have h2 := toField_lt 14 b
  simp only [enc2x14]; omega

theorem enc1x28_lt (a : Int) : enc1x28 a < 2 ^ 32 := by
  have h1 := toField_lt 28 a
  simp only [enc1x28]; omega

theorem packDiffs_words_lt : ∀ fuel ds w, w ∈ packDiffs fuel ds → w < 2 ^ 32 := by
  intro fuel
  induction fuel with
  | zero => intro ds w hw; simp [packDiffs] at hw
  | succ n ih =>
    intro ds w hw
    have hb4 := enc4x7_lt
    have hb9 := enc7x9hi_lt
    have hb10 := enc3x10_lt
    have hb14 := enc2x14_lt
    have hb28 := enc1x28_lt
    have hesc : escWord < 2 ^ 32 := by simp [escWord]
    have htf : ∀ x : Int, toField 32 x < 2 ^ 32 := toField_lt 32
    have hmod : ∀ v : Nat, v % 2 ^ 32 < 2 ^ 32 := fun v => Nat.mod_lt v (by norm_num)
    rcases ds with _ | ⟨d0, rest⟩
    · simp [packDiffs] at hw
    rcases rest with _ | ⟨d1, r1⟩
    · simp only [packDiffs] at hw
      split_ifs at hw <;> simp only [List.mem_cons, List.mem_singleton] at hw <;>
        rcases hw with rfl | hw <;>
        first
          | apply hb28
          | apply hesc
          | (rcases hw with rfl | hw
             · first | apply htf | apply hb28 | apply hesc
             · simp at hw)
          | simp at hw
    rcases r1 with _ | ⟨d2, r2⟩
    · simp only [packDiffs] at hw
      split_ifs at hw <;> simp only [List.mem_cons] at hw <;>
        rcases hw with rfl | hw <;>
        first
          | apply hb14
          | apply hb28
          | apply hesc
          | exact ih _ _ hw
          | (rcases hw with rfl | hw
             · apply htf
             · exact ih _ _ hw)
    rcases r2 with _ | ⟨d3, r3⟩
    · simp only [packDiffs] at hw
      split_ifs at hw <;> simp only [List.mem_cons] at hw <;>
        rcases hw with rfl | hw <;>
        first
          | apply hb10
          | apply hb14
          | apply hb28
          | apply hesc
          | exact ih _ _ hw
          | (rcases hw with rfl | hw
             · apply htf
             · exact ih _ _ hw)
    rcases r3 with _ | ⟨d4, r4⟩
    · simp only [packDiffs] at hw
      split_ifs at hw <;> simp only [List.mem_cons] at hw <;>
        rcases hw with rfl | hw <;>
        first
          | apply hb4
          | apply hb10
          | apply hb14
          | apply hb28
          | apply hesc
          | exact ih _ _ hw
          | (rcases hw with rfl | hw
             · apply htf
             · exact ih _ _ hw)
    rcases r4 with _ | ⟨d5, r5⟩
    · simp only [packDiffs] at hw
      split_ifs at hw <;> simp only [List.mem_cons] at hw <;>
        rcases hw with rfl | hw <;>
        first
          | apply hb4
          | apply hb10
          | apply hb14
          | apply hb28
          | apply hesc
          | exact ih _ _ hw
          | (rcases hw with rfl | hw
             · apply htf
             · exact ih _ _ hw)
    rcases r5 with _ | ⟨d6, r6⟩
    · simp only [packDiffs] at hw
      split_ifs at hw <;> simp only [List.mem_cons] at hw <;>
        rcases hw with rfl | hw <;>
        first
          | apply hb4
          | apply hb10
          | apply hb14
          | apply hb28
          | apply hesc
          | exact ih _ _ hw
          | (rcases hw with rfl | hw
             · apply htf
             · exact ih _ _ hw)
    simp only [packDiffs] at hw
    split_ifs at hw <;> simp only [List.mem_cons] at hw <;>
      rcases hw with rfl | hw <;>
      first
        | apply hb4
        | apply hb9
        | apply hb10
        | apply hb14
        | apply hb28
        | apply hesc
        | exact ih _ _ hw
        | (rcases hw with rfl | hw
           · first | apply hmod | apply htf
           · exact ih _ _ hw)

/-! ### Block-level round-trip lemmas -/

theorem decodeBlocks_step (bfuel need : Nat) (prev : Int) (chunk : List Int)
    (cw : Nat) (extra : List Nat)
    (hne : chunk ≠ []) (hlen : chunk.length < 2 ^ 16)
    (h32 : ∀ x ∈ chunk, int32 x) (hneed : chunk.length ≤ need) :
    decodeBlocks (bfuel + 1)
      ((4 * (2 + (packDiffs chunk.length (diffsFrom prev chunk)).length) * 2 ^ 16 +
          chunk.length) :: cw ::
        (packDiffs chunk.length (diffsFrom prev chunk) ++ extra)) need prev =
      if cw % 2 ^ 24 = ((chunk.getLast?.getD prev) % (2 : Int) ^ 24).toNat then
        ((decodeBlocks bfuel extra (need - chunk.length)
            (chunk.getLast?.getD prev)).1,
          chunk ++ (decodeBlocks bfuel extra (need - chunk.length)
            (chunk.getLast?.getD prev)).2)
      else (ECStatus.EC_CHECK_ERROR, []) := by
  obtain ⟨m, hm⟩ : ∃ m, need = m + 1 := by
    rcases chunk with _ | _
    · exact absurd rfl hne
    · exact ⟨need - 1, by simp at hneed; omega⟩
  subst hm
  have hL : (diffsFrom prev chunk).length = chunk.length := diffsFrom_length chunk prev
  obtain ⟨es, hdec, hrel⟩ := decodeDiffs_packDiffs chunk.length (diffsFrom prev chunk)
    ((packDiffs chunk.length (diffsFrom prev chunk)).length + 1) (by omega) (by omega)
  rw [hL] at hdec
  have hint : integrate prev es = chunk := by
    rw [integrate_equiv hrel prev, integrate_diffsFrom chunk prev h32]
  have hns : chunk.length < 2 ^ 16 := hlen
  have hhw : (4 * (2 + (packDiffs chunk.length (diffsFrom prev chunk)).length) *
      2 ^ 16 + chunk.length) / 2 ^ 16 =
      4 * (2 + (packDiffs chunk.length (diffsFrom prev chunk)).length) := by omega
  have hmod : (4 * (2 + (packDiffs chunk.length (diffsFrom prev chunk)).length) *
      2 ^ 16 + chunk.length) % 2 ^ 16 = chunk.length := by omega
  simp only [decodeBlocks, hhw, hmod]
  rw [if_neg (by omega :
    ¬ (4 * (2 + (packDiffs chunk.length (diffsFrom prev chunk)).length) % 4 ≠ 0 ∨
      4 * (2 + (packDiffs chunk.length (diffsFrom prev chunk)).length) / 4 < 2))]
  rw [if_neg (by
    simp only [List.length_cons, List.length_append]
    omega :
    ¬ (((4 * (2 + (packDiffs chunk.length (diffsFrom prev chunk)).length) * 2 ^ 16 +
        chunk.length) :: cw ::
      (packDiffs chunk.length (diffsFrom prev chunk) ++ extra)).length <
      4 * (2 + (packDiffs chunk.length (diffsFrom prev chunk)).length) / 4))]
  rw [if_neg (by omega : ¬ (m + 1 < chunk.length))]
  have hdiv : 4 * (2 + (packDiffs chunk.length (diffsFrom prev chunk)).length) / 4 - 2 =
      (packDiffs chunk.length (diffsFrom prev chunk)).length := by omega
  rw [hdiv, List.take_left]
  have hdrop : ((4 * (2 + (packDiffs chunk.length (diffsFrom prev chunk)).length) *
      2 ^ 16 + chunk.length) :: cw ::
      (packDiffs chunk.length (diffsFrom prev chunk) ++ extra)).drop
      (4 * (2 + (packDiffs chunk.length (diffsFrom prev chunk)).length) / 4) = extra := by
    rw [show 4 * (2 + (packDiffs chunk.length (diffsFrom prev chunk)).length) / 4 =
      (packDiffs chunk.length (diffsFrom prev chunk)).length + 1 + 1 by omega]
    simp only [List.drop_succ_cons]
    exact List.drop_left _ _
  rw [hdrop]
  simp only [Nat.succ_eq_add_one, hdec, hint]
  by_cases hchk : cw % 2 ^ 24 = ((chunk.getLast?.getD prev) % (2 : Int) ^ 24).toNat
  · rw [if_pos hchk,
      if_neg (by omega : ¬ ((chunk.getLast?.getD prev % (2 : Int) ^ 24).toNat ≠
        cw % 2 ^ 24))]
  · rw [if_neg hchk, if_pos (by omega :
      (chunk.getLast?.getD prev % (2 : Int) ^ 24).toNat ≠ cw % 2 ^ 24)]

theorem decodeBlocks_zero (fuel : Nat) (ws : List Nat) (prev : Int) :
    decodeBlocks fuel ws 0 prev = (ECStatus.EC_SUCCESS, []) := by
  cases fuel <;> cases ws <;> rfl

theorem decodeBlocks_encodeBlock (bfuel need : Nat) (prev : Int) (chunk : List Int)
    (flag : Nat) (extra : List Nat)
    (hne : chunk ≠ []) (hlen : chunk.length < 2 ^ 16)
    (h32 : ∀ x ∈ chunk, int32 x) (hneed : chunk.length ≤ need) :
    decodeBlocks (bfuel + 1) (Block.words (encodeBlock prev chunk flag) ++ extra)
      need prev =
      ((decodeBlocks bfuel extra (need - chunk.length)
          (chunk.getLast?.getD prev)).1,
        chunk ++ (decodeBlocks bfuel extra (need - chunk.length)
          (chunk.getLast?.getD prev)).2) := by
  have hck : ((chunk.getLast?.getD prev) % (2 : Int) ^ 24).toNat < 2 ^ 24 :=
    toField_lt 24 (chunk.getLast?.getD prev)
  have hwords : Block.words (encodeBlock prev chunk flag) ++ extra =
      (4 * (2 + (packDiffs chunk.length (diffsFrom prev chunk)).length) * 2 ^ 16 +
        chunk.length) :: (flag * 2 ^ 24 +
          ((chunk.getLast?.getD prev) % (2 : Int) ^ 24).toNat) ::
        (packDiffs chunk.length (diffsFrom prev chunk) ++ extra) := by
    simp [Block.words, encodeBlock, Block.byteLength]
  rw [hwords, decodeBlocks_step bfuel need prev chunk _ extra hne hlen h32 hneed,
    if_pos (by omega)]

/-! ### Chunk lemmas -/

theorem chunksOf_flatten (cap : Nat) (hcap : 0 < cap) :
    ∀ fuel s, s.length ≤ fuel → (chunksOf cap fuel s).flatten = s := by
  intro fuel
  induction fuel with
  | zero =>
    intro s h
    have : s = [] := List.eq_nil_of_length_eq_zero (by omega)
    subst this; rfl
  | succ n ih =>
    intro s h
    rcases s with _ | ⟨x, xs⟩
    · rfl
    simp only [chunksOf]
    split_ifs with hle
    · simp
    · simp only [List.flatten_cons]
      rw [ih ((x :: xs).drop cap) (by simp at h ⊢; omega)]
      exact List.take_append_drop cap (x :: xs)

theorem chunksOf_mem_ne_nil (cap : Nat) (hcap : 0 < cap) :
    ∀ fuel s c, c ∈ chunksOf cap fuel s → c ≠ [] := by
  intro fuel
  induction fuel with
  | zero => intro s c hc; simp [chunksOf] at hc
  | succ n ih =>
    intro s c hc
    rcases s with _ | ⟨x, xs⟩
    · simp [chunksOf] at hc
    simp only [chunksOf] at hc
    split_ifs at hc with hle
    · simp at hc; subst hc; simp
    · simp only [List.mem_cons] at hc
      rcases hc with rfl | hc
      · intro hcon
        have h0 := congrArg List.length hcon
        rw [List.length_take] at h0
        simp only [List.length_cons, List.length_nil] at h0
        omega
      · exact ih _ _ hc

theorem chunksOf_mem_le (cap : Nat) :
    ∀ fuel s c, c ∈ chunksOf cap fuel s → c.length ≤ cap := by
  intro fuel
  induction fuel with
  | zero => intro s c hc; simp [chunksOf] at hc
  | succ n ih =>
    intro s c hc
    rcases s with _ | ⟨x, xs⟩
    · simp [chunksOf] at hc
    simp only [chunksOf] at hc
    split_ifs at hc with hle
    · simp at hc; subst hc; exact hle
    · simp only [List.mem_cons] at hc
      rcases hc with rfl | hc
      · simp
      · exact ih _ _ hc

/-! ### Stream-level round trip -/

theorem decodeBlocks_stream :
    ∀ (chunks : List (List Int)) (prev : Int) (extra : List Nat) (bfuel : Nat),
      (∀ c ∈ chunks, c ≠ []) → (∀ c ∈ chunks, c.length < 2 ^ 16) →
      (∀ c ∈ chunks, ∀ x ∈ c, int32 x) → chunks.length ≤ bfuel →
      decodeBlocks bfuel
        (((compressBlocksGo prev chunks).map Block.words).flatten ++ extra)
        chunks.flatten.length prev = (ECStatus.EC_SUCCESS, chunks.flatten) := by
  intro chunks
  induction chunks with
  | nil =>
    intro prev extra bfuel _ _ _ _
    simp only [compressBlocksGo, List.map_nil, List.flatten_nil, List.length_nil]
    exact decodeBlocks_zero bfuel extra prev
  | cons c cs ih =>
    intro prev extra bfuel hne hlen h32 hbf
    rcases bfuel with _ | bf
    · simp at hbf
    rcases cs with _ | ⟨c2, cs2⟩
    · simp only [compressBlocksGo, List.map_cons, List.map_nil, List.flatten_cons,
        List.flatten_nil, List.append_nil, List.flatten]
      rw [decodeBlocks_encodeBlock bf c.length prev c 1 extra
        (hne c (by simp)) (hlen c (by simp)) (h32 c (by simp)) le_rfl]
      rw [Nat.sub_self, decodeBlocks_zero]
      simp
    · simp only [compressBlocksGo, List.map_cons, List.flatten_cons]
      rw [List.append_assoc]
      have hlenflat : (c ++ (c2 ++ cs2.flatten)).length =
          c.length + (c2 :: cs2).flatten.length := by simp
      rw [hlenflat]
      rw [decodeBlocks_encodeBlock bf _ prev c 0 _
        (hne c (by simp)) (hlen c (by simp)) (h32 c (by simp)) (by omega)]
      rw [show c.length + (c2 :: cs2).flatten.length - c.length =
        (c2 :: cs2).flatten.length by omega]
      rw [ih (c.getLast?.getD prev) extra bf
        (fun d hd => hne d (by simp [hd])) (fun d hd => hlen d (by simp [hd]))
        (fun d hd => h32 d (by simp [hd])) (by simp at hbf ⊢; omega)]
      simp

/-! ### Byte-level serialization lemmas -/

theorem wordsToBytes_cons (w : Nat) (ws : List Nat) :
    wordsToBytes (w :: ws) =
      w / 2 ^ 24 % 256 :: w / 2 ^ 16 % 256 :: w / 2 ^ 8 % 256 :: w % 256 ::
        wordsToBytes ws := by
  simp [wordsToBytes, wordToBytes]

theorem wordsToBytes_length (ws : List Nat) :
    (wordsToBytes ws).length = 4 * ws.length := by
  induction ws with
  | nil => rfl
  | cons w ws ih => rw [wordsToBytes_cons]; simp [ih]; omega

theorem bytesToWords_wordsToBytes (ws : List Nat) (h : ∀ w ∈ ws, w < 2 ^ 32)
    (t : List Nat) : bytesToWords (wordsToBytes ws ++ t) = ws ++ bytesToWords t := by
  induction ws with
  | nil => simp [wordsToBytes]
  | cons w ws ih =>
    have hw : w < 2 ^ 32 := h w (by simp)
    rw [wordsToBytes_cons]
    simp only [List.cons_append, bytesToWords, List.append_eq]
    rw [ih (fun v hv => h v (by simp [hv]))]
    have hrec : w / 2 ^ 24 % 256 * 2 ^ 24 + w / 2 ^ 16 % 256 * 2 ^ 16 +
        w / 2 ^ 8 % 256 * 2 ^ 8 + w % 256 = w := by omega
    rw [hrec]

theorem encodeBlock_words_lt (prev : Int) (c : List Int) (flag : Nat)
    (hflag : flag ≤ 1) (hcle : c.length ≤ 510) :
    ∀ w ∈ Block.words (encodeBlock prev c flag), w < 2 ^ 32 := by
  intro w hw
  have hLb : (packDiffs c.length (diffsFrom prev c)).length ≤ 2 * c.length := by
    have h := packDiffs_length_le c.length (diffsFrom prev c)
    rwa [diffsFrom_length] at h
  have hck : ((c.getLast?.getD prev) % (2 : Int) ^ 24).toNat < 2 ^ 24 :=
    toField_lt 24 (c.getLast?.getD prev)
  simp only [Block.words, encodeBlock, Block.byteLength, List.mem_cons] at hw
  rcases hw with rfl | hw1
  · omega
  rcases hw1 with rfl | hw2
  · omega
  · exact packDiffs_words_lt _ _ _ hw2

theorem compressBlocksGo_words_lt :
    ∀ (chunks : List (List Int)) (prev : Int),
      (∀ c ∈ chunks, c.length ≤ 510) →
      ∀ w ∈ ((compressBlocksGo prev chunks).map Block.words).flatten, w < 2 ^ 32 := by
  intro chunks
  induction chunks with
  | nil => intro prev _ w hw; simp [compressBlocksGo] at hw
  | cons c cs ih =>
    intro prev hle w hw
    rcases cs with _ | ⟨c2, cs2⟩
    · simp only [compressBlocksGo, List.map_cons, List.map_nil, List.flatten_cons,
        List.flatten_nil, List.append_nil] at hw
      exact encodeBlock_words_lt prev c 1 (by omega) (hle c (by simp)) w hw
    · simp only [compressBlocksGo, List.map_cons, List.flatten_cons,
        List.mem_append] at hw
      rcases hw with hw | hw
      · exact encodeBlock_words_lt prev c 0 (by omega) (hle c (by simp)) w hw
      · exact ih (c.getLast?.getD prev) (fun d hd => hle d (by simp [hd])) w hw

theorem compressBlocksGo_length_ge :
    ∀ (chunks : List (List Int)) (prev : Int),
      chunks.length ≤ (((compressBlocksGo prev chunks).map Block.words).flatten).length := by
  intro chunks
  induction chunks with
  | nil => intro prev; simp [compressBlocksGo]
  | cons c cs ih =>
    intro prev
    rcases cs with _ | ⟨c2, cs2⟩
    · simp [compressBlocksGo, Block.words]
    · have h := ih (c.getLast?.getD prev)
      simp only [compressBlocksGo, List.map_cons, List.flatten_cons,
        List.length_append, List.length_cons, Block.words] at h ⊢
      omega

/-- C1: round trip of `compress` and `decompress` for every int32 sample
sequence. -/
theorem roundtrip_compress_decompress (s : List Int)
    (h32 : ∀ x ∈ s, int32 x) :
    decompress (compress s) s.length = .ok s := by
  have hcap : capacitySamples false 1 = 510 := rfl
  have hcappos : 0 < capacitySamples false 1 := by rw [hcap]; norm_num
  have hflat : (chunksOf (capacitySamples false 1) s.length s).flatten = s :=
    chunksOf_flatten _ hcappos s.length s le_rfl
  have hne : ∀ c ∈ chunksOf (capacitySamples false 1) s.length s, c ≠ [] :=
    fun c hc => chunksOf_mem_ne_nil _ hcappos s.length s c hc
  have hle : ∀ c ∈ chunksOf (capacitySamples false 1) s.length s, c.length ≤ 510 :=
    fun c hc => by
      have h := chunksOf_mem_le _ s.length s c hc
      rwa [hcap] at h
  have hlen16 : ∀ c ∈ chunksOf (capacitySamples false 1) s.length s,
      c.length < 2 ^ 16 := fun c hc => by have := hle c hc; omega
  have h32c : ∀ c ∈ chunksOf (capacitySamples false 1) s.length s,
      ∀ x ∈ c, int32 x := fun c hc x hx => by
    refine h32 x ?_
    rw [← hflat]
    exact List.mem_flatten.mpr ⟨c, hc, hx⟩
  have hwlt : ∀ w ∈ compressWords s, w < 2 ^ 32 := by
    intro w hw
    simp only [compressWords, compressBlocks] at hw
    exact compressBlocksGo_words_lt _ 0 hle w hw
  have hb4 : (compress s).length % 4 = 0 := by
    rw [compress, wordsToBytes_length]; omega
  have hfuel : (chunksOf (capacitySamples false 1) s.length s).length ≤
      (compressWords s).length + 1 := by
    have h := compressBlocksGo_length_ge
      (chunksOf (capacitySamples false 1) s.length s) 0
    simp only [compressWords, compressBlocks]
    omega
  have hstream := decodeBlocks_stream
    (chunksOf (capacitySamples false 1) s.length s) 0 []
    ((compressWords s).length + 1) hne hlen16 h32c hfuel
  rw [List.append_nil] at hstream
  rw [hflat] at hstream
  rw [show ((List.map Block.words (compressBlocksGo 0
      (chunksOf (capacitySamples false 1) s.length s))).flatten) =
    compressWords s from rfl] at hstream
  have hbw : bytesToWords (compress s) = compressWords s := by
    have h := bytesToWords_wordsToBytes (compressWords s) hwlt []
    rw [show bytesToWords [] = [] from rfl, List.append_nil] at h
    exact h.trans (List.append_nil _)
  rw [decompress, if_neg (by omega), hbw, e_decomp, hstream]

/-- Closed witness for the round-trip theorem. -/
theorem roundtrip_compress_decompress_witness :
    (∀ x ∈ ([257, -3, 412] : List Int), int32 x) ∧
      decompress (compress [257, -3, 412]) 3 = .ok [257, -3, 412] :=
  ⟨by decide, roundtrip_compress_decompress [257, -3, 412] (by decide)⟩

set_option maxRecDepth 40000 in
/-- C2: `compress` applied to the fixed 40-sample sequence yields exactly
the frozen 56-byte big-endian block stream of the test fixture, and
`decompress` of that byte stream with count 40 yields the identical 40
values. -/
theorem fixture_roundtrip :
    compress e1data = e1bytes ∧ decompress e1bytes 40 = .ok e1data := by
  constructor
  · decide
  · rfl

theorem decompress_compress_append (s : List Int) (t : List Nat)
    (h32 : ∀ x ∈ s, int32 x) (ht : t.length % 4 = 0) :
    decompress (compress s ++ t) s.length = .ok s := by
  have hcap : capacitySamples false 1 = 510 := rfl
  have hcappos : 0 < capacitySamples false 1 := by rw [hcap]; norm_num
  have hflat : (chunksOf (capacitySamples false 1) s.length s).flatten = s :=
    chunksOf_flatten _ hcappos s.length s le_rfl
  have hne : ∀ c ∈ chunksOf (capacitySamples false 1) s.length s, c ≠ [] :=
    fun c hc => chunksOf_mem_ne_nil _ hcappos s.length s c hc
  have hle : ∀ c ∈ chunksOf (capacitySamples false 1) s.length s, c.length ≤ 510 :=
    fun c hc => by
      have h := chunksOf_mem_le _ s.length s c hc
      rwa [hcap] at h
  have hlen16 : ∀ c ∈ chunksOf (capacitySamples false 1) s.length s,
      c.length < 2 ^ 16 := fun c hc => by have := hle c hc; omega
  have h32c : ∀ c ∈ chunksOf (capacitySamples false 1) s.length s,
      ∀ x ∈ c, int32 x := fun c hc x hx => by
    refine h32 x ?_
    rw [← hflat]
    exact List.mem_flatten.mpr ⟨c, hc, hx⟩
  have hwlt : ∀ w ∈ compressWords s, w < 2 ^ 32 := by
    intro w hw
    simp only [compressWords, compressBlocks] at hw
    exact compressBlocksGo_words_lt _ 0 hle w hw
  have hb4 : (compress s ++ t).length % 4 = 0 := by
    rw [List.length_append, compress, wordsToBytes_length]; omega
  have hfuel : (chunksOf (capacitySamples false 1) s.length s).length ≤
      (compressWords s ++ bytesToWords t).length + 1 := by
    have h := compressBlocksGo_length_ge
      (chunksOf (capacitySamples false 1) s.length s) 0
    simp only [compressWords, compressBlocks, List.length_append] at h ⊢
    omega
  have hstream := decodeBlocks_stream
    (chunksOf (capacitySamples false 1) s.length s) 0 (bytesToWords t)
    ((compressWords s ++ bytesToWords t).length + 1) hne hlen16 h32c hfuel
  rw [hflat] at hstream
  rw [show ((List.map Block.words (compressBlocksGo 0
      (chunksOf (capacitySamples false 1) s.length s))).flatten) =
    compressWords s from rfl] at hstream
  have hbw : bytesToWords (compress s ++ t) = compressWords s ++ bytesToWords t :=
    bytesToWords_wordsToBytes (compressWords s) hwlt t
  rw [decompress, if_neg (by omega), hbw, e_decomp, hstream]

set_option maxRecDepth 40000 in
/-- C3 counterexample: a single arbitrary trailing byte makes `decompress`
fail (the `ValueError` of `np.frombuffer` on a buffer whose length is not a
multiple of 4), so trailing bytes do not always leave the result
unchanged. -/
theorem padding_arbitrary_bytes_cex :
    decompress (compress [1] ++ [0]) 1 ≠ decompress (compress [1]) 1 := by
  decide

/-- C3 (amended): for every int32 sample sequence and every trailing byte
string whose length is a multiple of 4, the trailing bytes change nothing:
`decompress (compress s ++ t) (len s) = decompress (compress s) (len s)`,
and both succeed. -/
theorem padding_tolerance_mod4 (s : List Int) (t : List Nat)
    (h32 : ∀ x ∈ s, int32 x) (ht : t.length % 4 = 0) :
    decompress (compress s ++ t) s.length = decompress (compress s) s.length := by
  rw [decompress_compress_append s t h32 ht]
  have h := decompress_compress_append s [] h32 (by simp)
  rw [List.append_nil] at h
  rw [h]

/-- Closed witness for the amended padding-tolerance theorem. -/
theorem padding_tolerance_mod4_witness :
    (∀ x ∈ ([9, -7] : List Int), int32 x) ∧ ([0, 0, 0, 0] : List Nat).length % 4 = 0 ∧
      decompress (compress [9, -7] ++ [0, 0, 0, 0]) 2 =
        decompress (compress [9, -7]) 2 :=
  ⟨by decide, by decide, padding_tolerance_mod4 [9, -7] [0, 0, 0, 0] (by decide) (by decide)⟩

/-! ### Exact-count lemmas for the decoder -/

theorem integrate_length : ∀ (ds : List Int) (prev : Int),
    (integrate prev ds).length = ds.length := by
  intro ds
  induction ds with
  | nil => intro prev; rfl
  | cons d ds ih => intro prev; simp [integrate, ih]

theorem decodeDiffs_cases :
    ∀ fuel ws need,
      (∃ es, decodeDiffs fuel ws need = .ok es ∧ es.length = need) ∨
      (∃ e, decodeDiffs fuel ws need = .error e ∧ e ≠ ECStatus.EC_SUCCESS) := by
  intro fuel
  induction fuel with
  | zero =>
    intro ws need
    rcases need with _ | m
    · exact Or.inl ⟨[], decodeDiffs_zero 0 ws, rfl⟩
    · rcases ws with _ | ⟨w, rest⟩ <;> exact Or.inr ⟨_, rfl, by simp⟩
  | succ n ih =>
    intro ws need
    rcases need with _ | m
    · exact Or.inl ⟨[], decodeDiffs_zero (n + 1) ws, rfl⟩
    rcases ws with _ | ⟨w, rest⟩
    · exact Or.inr ⟨_, rfl, by simp⟩
    by_cases h1 : w < 2 ^ 31
    · rcases rest with _ | ⟨w2, rest2⟩
      · exact Or.inr ⟨ECStatus.EC_SAMP_ERROR,
          by simp only [decodeDiffs, if_pos h1], by simp⟩
      by_cases h6 : m + 1 < 7
      · exact Or.inr ⟨ECStatus.EC_DIFF_ERROR,
          by simp only [decodeDiffs, if_pos h1, if_pos h6], by simp⟩
      rcases ih rest2 (m + 1 - 7) with ⟨es, hok, hlen⟩ | ⟨e, herr, hne⟩
      · refine Or.inl ⟨dec7x9 w w2 ++ es, ?_, ?_⟩
        · simp only [decodeDiffs, if_pos h1, if_neg h6, hok]
        · simp only [dec7x9, List.length_append, List.length_cons, List.length_nil]
          omega
      · exact Or.inr ⟨e,
          by simp only [decodeDiffs, if_pos h1, if_neg h6, herr], hne⟩
    by_cases h2 : w / 2 ^ 30 = 2
    · by_cases h6 : m + 1 < 3
      · exact Or.inr ⟨ECStatus.EC_DIFF_ERROR,
          by simp only [decodeDiffs, if_neg h1, if_pos h2, if_pos h6], by simp⟩
      rcases ih rest (m + 1 - 3) with ⟨es, hok, hlen⟩ | ⟨e, herr, hne⟩
      · refine Or.inl ⟨dec3x10 w ++ es, ?_, ?_⟩
        · simp only [decodeDiffs, if_neg h1, if_pos h2, if_neg h6, hok]
        · simp only [dec3x10, List.length_append, List.length_cons, List.length_nil]
          omega
      · exact Or.inr ⟨e,
          by simp only [decodeDiffs, if_neg h1, if_pos h2, if_neg h6, herr], hne⟩
    by_cases h3 : w / 2 ^ 28 = 12
    · by_cases h6 : m + 1 < 4
      · exact Or.inr ⟨ECStatus.EC_DIFF_ERROR,
          by simp only [decodeDiffs, if_neg h1, if_neg h2, if_pos h3, if_pos h6],
          by simp⟩
      rcases ih rest (m + 1 - 4) with ⟨es, hok, hlen⟩ | ⟨e, herr, hne⟩
      · refine Or.inl ⟨dec4x7 w ++ es, ?_, ?_⟩
        · simp only [decodeDiffs, if_neg h1, if_neg h2, if_pos h3, if_neg h6, hok]
        · simp only [dec4x7, List.length_append, List.length_cons, List.length_nil]
          omega
      · exact Or.inr ⟨e,
          by simp only [decodeDiffs, if_neg h1, if_neg h2, if_pos h3, if_neg h6,
            herr], hne⟩
    by_cases h4 : w / 2 ^ 28 = 13
    · by_cases h6 : m + 1 < 2
      · exact Or.inr ⟨ECStatus.EC_DIFF_ERROR,
          by simp only [decodeDiffs, if_neg h1, if_neg h2, if_neg h3, if_pos h4,
            if_pos h6], by simp⟩
      rcases ih rest (m + 1 - 2) with ⟨es, hok, hlen⟩ | ⟨e, herr, hne⟩
      · refine Or.inl ⟨dec2x14 w ++ es, ?_, ?_⟩
        · simp only [decodeDiffs, if_neg h1, if_neg h2, if_neg h3, if_pos h4,
            if_neg h6, hok]
        · simp only [dec2x14, List.length_append, List.length_cons, List.length_nil]
          omega
      · exact Or.inr ⟨e,
          by simp only [decodeDiffs, if_neg h1, if_neg h2, if_neg h3, if_pos h4,
            if_neg h6, herr], hne⟩
    by_cases h5 : w / 2 ^ 28 = 14
    · rcases rest with _ | ⟨w2, rest2⟩
      · exact Or.inr ⟨ECStatus.EC_SAMP_ERROR,
          by simp only [decodeDiffs, if_neg h1, if_neg h2, if_neg h3, if_neg h4,
            if_pos h5], by simp⟩
      rcases ih rest2 m with ⟨es, hok, hlen⟩ | ⟨e, herr, hne⟩
      · refine Or.inl ⟨fromField 32 (w2 % 2 ^ 32) :: es, ?_, ?_⟩
        · simp only [decodeDiffs, if_neg h1, if_neg h2, if_neg h3, if_neg h4,
            if_pos h5, hok]
        · simp only [List.length_cons]
          omega
      · exact Or.inr ⟨e,
          by simp only [decodeDiffs, if_neg h1, if_neg h2, if_neg h3, if_neg h4,
            if_pos h5, herr], hne⟩
    rcases ih rest m with ⟨es, hok, hlen⟩ | ⟨e, herr, hne⟩
    · refine Or.inl ⟨fromField 28 (w % 2 ^ 28) :: es, ?_, ?_⟩
      · simp only [decodeDiffs, if_neg h1, if_neg h2, if_neg h3, if_neg h4,
          if_neg h5, hok]
      · simp only [List.length_cons]
        omega
    · exact Or.inr ⟨e,
        by simp only [decodeDiffs, if_neg h1, if_neg h2, if_neg h3, if_neg h4,
          if_neg h5, herr], hne⟩

theorem decodeDiffs_ok_length (fuel : Nat) (ws : List Nat) (need : Nat)
    (es : List Int) (h : decodeDiffs fuel ws need = .ok es) : es.length = need := by
  rcases decodeDiffs_cases fuel ws need with ⟨es2, hok, hlen⟩ | ⟨e, herr, _⟩
  · rw [h] at hok
    injection hok with h2
    subst h2
    exact hlen
  · rw [h] at herr
    exact absurd herr (by simp)

theorem decodeDiffs_error_ne (fuel : Nat) (ws : List Nat) (need : Nat)
    (e : ECStatus) (h : decodeDiffs fuel ws need = .error e) :
    e ≠ ECStatus.EC_SUCCESS := by
  rcases decodeDiffs_cases fuel ws need with ⟨es2, hok, _⟩ | ⟨e2, herr, hne⟩
  · rw [h] at hok
    exact absurd hok (by simp)
  · rw [h] at herr
    injection herr with h2
    subst h2
    exact hne

theorem decodeBlocks_success_length :
    ∀ fuel ws need prev ys,
      decodeBlocks fuel ws need prev = (ECStatus.EC_SUCCESS, ys) →
      ys.length = need := by
  intro fuel
  induction fuel with
  | zero =>
    intro ws need prev ys h
    rcases need with _ | m
    · rw [decodeBlocks_zero] at h
      injection h with h1 h2
      subst h2; rfl
    · simp [decodeBlocks] at h
  | succ n ih =>
    intro ws need prev ys h
    rcases need with _ | m
    · rw [decodeBlocks_zero] at h
      injection h with h1 h2
      subst h2; rfl
    rcases ws with _ | ⟨hw, rest⟩
    · simp [decodeBlocks] at h
    simp only [decodeBlocks] at h
    split_ifs at h with c1 c2 c3
    · simp at h
    · simp at h
    · simp at h
    rcases rest with _ | ⟨cw, rest2⟩
    · simp at h
    rcases hdd : decodeDiffs ((rest2.take (hw / 2 ^ 16 / 4 - 2)).length.succ)
        (rest2.take (hw / 2 ^ 16 / 4 - 2)) (hw % 2 ^ 16) with e | ds
    · have hnes := decodeDiffs_error_ne _ _ _ _ hdd
      simp only [hdd] at h
      injection h with hst hys
      exact absurd hst hnes
    simp only [hdd] at h
    by_cases hchk : ((integrate prev ds).getLast?.getD prev % (2 : Int) ^ 24).toNat ≠
        cw % 2 ^ 24
    · rw [if_pos hchk] at h
      simp at h
    rw [if_neg hchk] at h
    rcases hrec : decodeBlocks n ((hw :: cw :: rest2).drop (hw / 2 ^ 16 / 4))
        (m + 1 - hw % 2 ^ 16) ((integrate prev ds).getLast?.getD prev) with ⟨st2, ys2⟩
    rw [hrec] at h
    injection h with hst hys
    simp only [] at hst hys
    subst hst
    have hl2 : ys2.length = m + 1 - hw % 2 ^ 16 := ih _ _ _ ys2 hrec
    have hdl : ds.length = hw % 2 ^ 16 := decodeDiffs_ok_length _ _ _ _ hdd
    have hil : (integrate prev ds).length = ds.length := integrate_length ds prev
    subst hys
    simp only [List.length_append]
    omega

/-- C7: `decompress` raises the error carrying the precise status code
exactly when the core decoder returns a non-success status, discards any
accumulated samples in that case, and on `EC_SUCCESS` returns an array of
exactly `count` samples. -/
theorem status_propagation (buff : List Nat) (count : Nat)
    (h4 : buff.length % 4 = 0) :
    (∀ ys, e_decomp (bytesToWords buff) count 0 = (ECStatus.EC_SUCCESS, ys) →
        decompress buff count = .ok ys ∧ ys.length = count) ∧
      ∀ st ys, e_decomp (bytesToWords buff) count 0 = (st, ys) →
        st ≠ ECStatus.EC_SUCCESS →
        decompress buff count = .error (.ec st) := by
  constructor
  · intro ys hys
    refine ⟨?_, decodeBlocks_success_length _ _ _ _ _ hys⟩
    rw [decompress, if_neg (by omega), hys]
  · intro st ys hst hne
    rw [decompress, if_neg (by omega), hst]
    cases st
    · exact absurd rfl hne
    all_goals rfl

set_option maxRecDepth 40000 in
/-- Closed witness for the status-propagation theorem, at the frozen
fixture. -/
theorem status_propagation_witness :
    e1bytes.length % 4 = 0 ∧ decompress e1bytes 40 = .ok e1data ∧
      e1data.length = 40 :=
  ⟨by decide,
    ((status_propagation e1bytes 40 (by decide)).1 e1data (by rfl)).1,
    ((status_propagation e1bytes 40 (by decide)).1 e1data (by rfl)).2⟩

theorem take_eq_take_of_min {α : Type} :
    ∀ (l : List α) (m n : Nat), min m l.length = min n l.length →
      l.take m = l.take n := by
  intro l
  induction l with
  | nil => intro m n _; simp
  | cons x xs ih =>
    intro m n h
    rcases m with _ | m <;> rcases n with _ | n
    · rfl
    · simp only [List.length_cons] at h
      omega
    · simp only [List.length_cons] at h
      omega
    · simp only [List.length_cons] at h
      simp only [List.take_succ_cons]
      rw [ih m n (by omega)]

/-- C8: `decompress_file` reads exactly `min(remaining_bytes, 5*count*4)`
bytes from the stream's current position and delegates to `decompress` on
those bytes with the same count. -/
theorem decompress_file_reads_capped (f : ByteStream) (count : Nat) :
    decompress_file f count =
      decompress ((f.contents.drop f.pos).take
        (min (f.contents.length - f.pos) (5 * count * 4))) count ∧
      ((f.contents.drop f.pos).take
        (min (f.contents.length - f.pos) (5 * count * 4))).length =
        min (f.contents.length - f.pos) (5 * count * 4) := by
  constructor
  · rw [decompress_file]
    congr 1
    apply take_eq_take_of_min
    rw [List.length_drop]
    split_ifs with hgt <;> omega
  · rw [List.length_take, List.length_drop]
    omega

/-- C9: the legacy `e_compression` wrapper raises its bounds `ValueError`
exactly when `BYTEOFFSET` strictly exceeds the file size; an offset equal
to or below the file size never raises the bounds error. -/
theorem e_compression_bounds_iff (contents : List Nat) (byteOffset num : Nat) :
    e_compression contents byteOffset num = .error () ↔
      contents.length < byteOffset := by
  rw [e_compression]
  split_ifs with h <;> simp [h]

/-- C10: past the bounds check, `e_compression` always returns `.ok` with
the decoder's output buffer padded with zeros to `NUM` entries, whatever
status the native decoder computed into the discarded local `retval`. -/
theorem e_compression_ignores_status (contents : List Nat)
    (byteOffset num : Nat) (h : byteOffset ≤ contents.length) :
    ∀ st ys,
      e_decomp (bytesToWords ((contents.drop byteOffset).take
          ((if contents.length - byteOffset > 5 * num then 5 * num
            else contents.length - byteOffset) * 4))) num 0 = (st, ys) →
      e_compression contents byteOffset num =
        .ok (ys ++ List.replicate (num - ys.length) 0) := by
  intro st ys hcore
  rw [e_compression, if_neg (by omega), hcore]

/-- Closed witness for the status-discarding theorem: an empty file and a
requested sample makes the core fail with `EC_LENGTH_ERROR`, yet the
wrapper returns `.ok` with the zero-initialized buffer. -/
theorem e_compression_ignores_status_witness :
    (0 ≤ ([] : List Nat).length) ∧
      (e_decomp [] 1 0).1 = ECStatus.EC_LENGTH_ERROR ∧
      e_compression [] 0 1 = .ok [0] :=
  ⟨by decide, by decide,
    e_compression_ignores_status [] 0 1 (by decide)
      ECStatus.EC_LENGTH_ERROR [] rfl⟩

/-! ### Block-structure lemmas for the emitted stream -/

theorem analyse_nil (fuel : Nat) : analyse fuel [] = [] := by
  cases fuel <;> rfl

theorem analyse_cons_block (afuel : Nat) (b : Block) (rest : List Nat)
    (hs : b.sampleCount < 2 ^ 16) (hc : b.check < 2 ^ 24) :
    analyse (afuel + 1) (Block.words b ++ rest) =
      (b.byteLength, b.sampleCount, b.flag) :: analyse afuel rest := by
  obtain ⟨ns, fl, ck, dws⟩ := b
  simp only [Block.sampleCount] at hs
  simp only [Block.check] at hc
  simp only [Block.words, Block.byteLength, Block.flag, List.cons_append]
  simp only [analyse, List.headD_cons]
  rw [show (4 * (2 + dws.length) * 2 ^ 16 + ns) / 2 ^ 16 =
      4 * (2 + dws.length) from by omega,
    show (4 * (2 + dws.length) * 2 ^ 16 + ns) % 2 ^ 16 = ns from by omega,
    show (fl * 2 ^ 24 + ck) / 2 ^ 24 = fl from by omega,
    show 4 * (2 + dws.length) / 4 - 1 = dws.length + 1 from by omega]
  simp only [List.drop_succ_cons]
  rw [List.drop_left]

theorem analyse_stream :
    ∀ (chunks : List (List Int)) (prev : Int) (afuel : Nat),
      (∀ c ∈ chunks, c.length < 2 ^ 16) → chunks.length ≤ afuel →
      analyse afuel (((compressBlocksGo prev chunks).map Block.words).flatten) =
        (compressBlocksGo prev chunks).map
          fun b => (b.byteLength, b.sampleCount, b.flag) := by
  intro chunks
  induction chunks with
  | nil =>
    intro prev afuel _ _
    simp [compressBlocksGo, analyse_nil]
  | cons c cs ih =>
    intro prev afuel hlen haf
    rcases afuel with _ | af
    · simp at haf
    rcases cs with _ | ⟨c2, cs2⟩
    · simp only [compressBlocksGo, List.map_cons, List.map_nil, List.flatten_cons,
        List.flatten_nil]
      rw [analyse_cons_block af (encodeBlock prev c 1) []
        (by simpa [encodeBlock] using hlen c (by simp))
        (toField_lt 24 (c.getLast?.getD prev)), analyse_nil]
    · simp only [compressBlocksGo, List.map_cons, List.flatten_cons]
      rw [analyse_cons_block af (encodeBlock prev c 0) _
        (by simpa [encodeBlock] using hlen c (by simp))
        (toField_lt 24 (c.getLast?.getD prev))]
      rw [ih (c.getLast?.getD prev) af (fun d hd => hlen d (by simp [hd]))
        (by simp at haf ⊢; omega)]

theorem compressBlocksGo_sampleCounts :
    ∀ (chunks : List (List Int)) (prev : Int),
      (compressBlocksGo prev chunks).map (fun b => b.sampleCount) =
        chunks.map List.length := by
  intro chunks
  induction chunks with
  | nil => intro prev; rfl
  | cons c cs ih =>
    intro prev
    rcases cs with _ | ⟨c2, cs2⟩
    · simp [compressBlocksGo, encodeBlock]
    · simp only [compressBlocksGo, List.map_cons, encodeBlock]
      rw [show (List.map (fun b => Block.sampleCount b)
        (compressBlocksGo (c.getLast?.getD prev) (c2 :: cs2))) =
          (c2 :: cs2).map List.length from ih (c.getLast?.getD prev)]
      simp

theorem compressBlocksGo_flags :
    ∀ (chunks : List (List Int)) (prev : Int), chunks ≠ [] →
      (compressBlocksGo prev chunks).map (fun b => b.flag) =
        List.replicate (chunks.length - 1) 0 ++ [1] := by
  intro chunks
  induction chunks with
  | nil => intro prev h; exact absurd rfl h
  | cons c cs ih =>
    intro prev _
    rcases cs with _ | ⟨c2, cs2⟩
    · simp [compressBlocksGo, encodeBlock]
    · simp only [compressBlocksGo, List.map_cons, encodeBlock]
      rw [show (List.map (fun b => Block.flag b)
        (compressBlocksGo (c.getLast?.getD prev) (c2 :: cs2))) =
          List.replicate ((c2 :: cs2).length - 1) 0 ++ [1] from
        ih (c.getLast?.getD prev) (by simp)]
      rw [show (c :: c2 :: cs2).length - 1 = ((c2 :: cs2).length - 1) + 1 from
        by simp]
      rw [List.replicate_succ, List.cons_append]

theorem compressBlocksGo_length_eq :
    ∀ (chunks : List (List Int)) (prev : Int),
      (compressBlocksGo prev chunks).length = chunks.length := by
  intro chunks
  induction chunks with
  | nil => intro prev; rfl
  | cons c cs ih =>
    intro prev
    rcases cs with _ | ⟨c2, cs2⟩
    · rfl
    · simp only [compressBlocksGo, List.length_cons]
      rw [ih (c.getLast?.getD prev)]
      simp

theorem chunksOf510_lengths :
    ∀ fuel (s : List Int), s.length ≤ fuel → 0 < s.length →
      (chunksOf 510 fuel s).map List.length =
        List.replicate ((s.length + 509) / 510 - 1) 510 ++
          [s.length - ((s.length + 509) / 510 - 1) * 510] := by
  intro fuel
  induction fuel with
  | zero => intro s h hp; omega
  | succ n ih =>
    intro s h hp
    rcases s with _ | ⟨x, xs⟩
    · simp at hp
    simp only [chunksOf]
    split_ifs with hle
    · rw [show ((x :: xs).length + 509) / 510 - 1 = 0 from by
        simp only [List.length_cons] at hle ⊢; omega]
      simp
    · simp only [List.map_cons]
      have hlt : 510 < (x :: xs).length := by omega
      rw [show ((x :: xs).take 510).length = 510 from by
        rw [List.length_take]; omega]
      rw [ih ((x :: xs).drop 510) (by rw [List.length_drop]; omega)
        (by rw [List.length_drop]; omega)]
      rw [List.length_drop]
      rw [show ((x :: xs).length + 509) / 510 - 1 =
        (((x :: xs).length - 510 + 509) / 510 - 1) + 1 from by omega]
      rw [List.replicate_succ, List.cons_append]
      rw [show (x :: xs).length - 510 -
          (((x :: xs).length - 510 + 509) / 510 - 1) * 510 =
        (x :: xs).length -
          ((((x :: xs).length - 510 + 509) / 510 - 1) + 1) * 510 from by omega]

/-- C4: for a sequence of length `L > 0` compressed with the default
`"e1"` datatype (capacity `2048/4 − 2 = 510` samples), the emitted stream
consists of `⌈L/510⌉ = (L+509)/510` blocks; every block but the last
declares `sample_count = 510`, the last declares
`L − (blocks−1)·510` and carries the SHORT_END flag byte 1 while the
others carry FULL_END flag byte 0. -/
theorem block_boundary_correctness (s : List Int) (hpos : 0 < s.length) :
    (analyse (s.length + 1) (compressWords s)).map (fun e => e.2.1) =
        List.replicate ((s.length + 509) / 510 - 1) 510 ++
          [s.length - ((s.length + 509) / 510 - 1) * 510] ∧
      (analyse (s.length + 1) (compressWords s)).map (fun e => e.2.2) =
        List.replicate ((s.length + 509) / 510 - 1) 0 ++ [1] ∧
      (analyse (s.length + 1) (compressWords s)).length =
        (s.length + 509) / 510 := by
  have hcap : capacitySamples false 1 = 510 := rfl
  have hml := chunksOf510_lengths s.length s le_rfl hpos
  have hchlen : (chunksOf 510 s.length s).length = (s.length + 509) / 510 := by
    have h := congrArg List.length hml
    simp only [List.length_map, List.length_append, List.length_replicate,
      List.length_cons, List.length_nil] at h
    omega
  have hchne : chunksOf 510 s.length s ≠ [] := by
    intro hcon
    rw [hcon] at hchlen
    simp at hchlen
    omega
  have hlen16 : ∀ c ∈ chunksOf 510 s.length s, c.length < 2 ^ 16 := by
    intro c hc
    have := chunksOf_mem_le 510 s.length s c hc
    omega
  have hafuel : (chunksOf 510 s.length s).length ≤ s.length + 1 := by
    rw [hchlen]; omega
  have hstream := analyse_stream (chunksOf 510 s.length s) 0 (s.length + 1)
    hlen16 hafuel
  have hwords : compressWords s =
      ((compressBlocksGo 0 (chunksOf 510 s.length s)).map Block.words).flatten := by
    simp only [compressWords, compressBlocks, hcap]
  rw [hwords, hstream]
  refine ⟨?_, ?_, ?_⟩
  · rw [List.map_map]
    have : ((fun e : Nat × Nat × Nat => e.2.1) ∘
        fun b => (b.byteLength, b.sampleCount, b.flag)) =
        fun b : Block => b.sampleCount := rfl
    rw [this, compressBlocksGo_sampleCounts, hml]
  · rw [List.map_map]
    have : ((fun e : Nat × Nat × Nat => e.2.2) ∘
        fun b => (b.byteLength, b.sampleCount, b.flag)) =
        fun b : Block => b.flag := rfl
    rw [this, compressBlocksGo_flags _ 0 hchne, hchlen]
  · rw [List.length_map, compressBlocksGo_length_eq, hchlen]

/-- Closed witness for the block-boundary theorem. -/
theorem block_boundary_correctness_witness :
    0 < ([5, 6] : List Int).length ∧
      ((analyse (([5, 6] : List Int).length + 1) (compressWords [5, 6])).map
          (fun e => e.2.1) =
        List.replicate ((([5, 6] : List Int).length + 509) / 510 - 1) 510 ++
          [([5, 6] : List Int).length -
            ((([5, 6] : List Int).length + 509) / 510 - 1) * 510] ∧
      (analyse (([5, 6] : List Int).length + 1) (compressWords [5, 6])).map
          (fun e => e.2.2) =
        List.replicate ((([5, 6] : List Int).length + 509) / 510 - 1) 0 ++ [1] ∧
      (analyse (([5, 6] : List Int).length + 1) (compressWords [5, 6])).length =
        (([5, 6] : List Int).length + 509) / 510) :=
  ⟨by decide, block_boundary_correctness [5, 6] (by decide)⟩

theorem blocks_byteLength_sum : ∀ (bs : List Block),
    ((bs.map Block.words).flatten).length * 4 =
      (bs.map Block.byteLength).sum := by
  intro bs
  induction bs with
  | nil => rfl
  | cons b bs ih =>
    simp only [List.map_cons, List.flatten_cons, List.length_append,
      List.sum_cons, Block.words, Block.byteLength, List.length_cons]
    omega

theorem compressBlocksGo_sampleCount_le :
    ∀ (chunks : List (List Int)) (prev : Int),
      (∀ c ∈ chunks, c.length ≤ 510) →
      ∀ b ∈ compressBlocksGo prev chunks, b.sampleCount ≤ 510 := by
  intro chunks
  induction chunks with
  | nil => intro prev _ b hb; simp [compressBlocksGo] at hb
  | cons c cs ih =>
    intro prev hle b hb
    rcases cs with _ | ⟨c2, cs2⟩
    · simp only [compressBlocksGo, List.mem_singleton] at hb
      subst hb
      exact hle c (by simp)
    · simp only [compressBlocksGo, List.mem_cons] at hb
      rcases hb with rfl | hb
      · exact hle c (by simp)
      · exact ih (c.getLast?.getD prev) (fun d hd => hle d (by simp [hd])) b hb

/-- C5: every block emitted by `compress` declares in `byte_length` the
true serialized size of the block (4 header bytes plus the check word and
data words actually written), `byte_length` is a multiple of 4,
`sample_count` never exceeds the capacity 510, and the declared byte
lengths add up exactly to the length of the emitted stream (no padding to
the worst-case budget). -/
theorem header_self_consistency (s : List Int) :
    (∀ b ∈ compressBlocks s,
        b.byteLength = (wordsToBytes (Block.words b)).length ∧
          b.byteLength % 4 = 0 ∧ b.sampleCount ≤ 510) ∧
      (compress s).length = ((compressBlocks s).map Block.byteLength).sum := by
  have hcap : capacitySamples false 1 = 510 := rfl
  constructor
  · intro b hb
    refine ⟨?_, ?_, ?_⟩
    · rw [wordsToBytes_length]
      simp only [Block.words, Block.byteLength, List.length_cons]
      omega
    · simp only [Block.byteLength]
      omega
    · simp only [compressBlocks, hcap] at hb
      exact compressBlocksGo_sampleCount_le (chunksOf 510 s.length s) 0
        (fun c hc => chunksOf_mem_le 510 s.length s c hc) b hb
  · rw [compress, wordsToBytes_length]
    have h := blocks_byteLength_sum (compressBlocks s)
    simp only [compressWords]
    omega

/-- Closed witness for the header-self-consistency theorem. -/
theorem header_self_consistency_witness :
    encodeBlock 0 [5, 6] 1 ∈ compressBlocks [5, 6] ∧
      (encodeBlock 0 [5, 6] 1).byteLength =
        (wordsToBytes (Block.words (encodeBlock 0 [5, 6] 1))).length ∧
      (encodeBlock 0 [5, 6] 1).byteLength % 4 = 0 ∧
      (encodeBlock 0 [5, 6] 1).sampleCount ≤ 510 ∧
      (compress [5, 6]).length =
        ((compressBlocks [5, 6]).map Block.byteLength).sum :=
  ⟨by decide,
    ((header_self_consistency [5, 6]).1 (encodeBlock 0 [5, 6] 1) (by decide)).1,
    ((header_self_consistency [5, 6]).1 (encodeBlock 0 [5, 6] 1) (by decide)).2.1,
    ((header_self_consistency [5, 6]).1 (encodeBlock 0 [5, 6] 1) (by decide)).2.2,
    (header_self_consistency [5, 6]).2⟩

theorem xor_flip_ne (x b : Nat) : x ^^^ 2 ^ b ≠ x := by
  intro h
  have h2 : x ^^^ (x ^^^ 2 ^ b) = x ^^^ x := by rw [h]
  rw [← Nat.xor_assoc, Nat.xor_self, Nat.zero_xor] at h2
  have hp : 0 < 2 ^ b := Nat.pow_pos (by norm_num)
  omega

theorem xor_byte_lt (x b : Nat) (hx : x < 256) (hb : b < 8) :
    x ^^^ 2 ^ b < 256 := by
  have h1 : x < 2 ^ 8 := by omega
  have h2 : (2 : Nat) ^ b < 2 ^ 8 := by
    have h3 : (2 : Nat) ^ b ≤ 2 ^ 7 := Nat.pow_le_pow_right (by norm_num) (by omega)
    omega
  have h4 := Nat.xor_lt_two_pow h1 h2
  omega

theorem flipByteBit_word1_b1 (w0 w1 : Nat) (T : List Nat) (bit : Nat)
    (hbit : bit < 8) :
    flipByteBit (wordsToBytes (w0 :: w1 :: T)) 5 bit =
      wordsToBytes (w0 ::
        (w1 / 2 ^ 24 % 256 * 2 ^ 24 + (w1 / 2 ^ 16 % 256 ^^^ 2 ^ bit) * 2 ^ 16 +
          w1 / 2 ^ 8 % 256 * 2 ^ 8 + w1 % 256) :: T) := by
  simp only [wordsToBytes_cons]
  rw [show flipByteBit (w0 / 2 ^ 24 % 256 :: w0 / 2 ^ 16 % 256 :: w0 / 2 ^ 8 % 256 ::
      w0 % 256 :: w1 / 2 ^ 24 % 256 :: w1 / 2 ^ 16 % 256 :: w1 / 2 ^ 8 % 256 ::
      w1 % 256 :: wordsToBytes T) 5 bit =
    w0 / 2 ^ 24 % 256 :: w0 / 2 ^ 16 % 256 :: w0 / 2 ^ 8 % 256 :: w0 % 256 ::
      w1 / 2 ^ 24 % 256 :: (w1 / 2 ^ 16 % 256 ^^^ 2 ^ bit) :: w1 / 2 ^ 8 % 256 ::
      w1 % 256 :: wordsToBytes T from rfl]
  obtain ⟨x, hxeq, hxlt⟩ : ∃ x, w1 / 2 ^ 16 % 256 ^^^ 2 ^ bit = x ∧ x < 256 :=
    ⟨_, rfl, xor_byte_lt _ _ (by omega) hbit⟩
  rw [hxeq]
  have e1 : (w1 / 2 ^ 24 % 256 * 2 ^ 24 + x * 2 ^ 16 + w1 / 2 ^ 8 % 256 * 2 ^ 8 +
      w1 % 256) / 2 ^ 24 % 256 = w1 / 2 ^ 24 % 256 := by omega
  have e2 : (w1 / 2 ^ 24 % 256 * 2 ^ 24 + x * 2 ^ 16 + w1 / 2 ^ 8 % 256 * 2 ^ 8 +
      w1 % 256) / 2 ^ 16 % 256 = x := by omega
  have e3 : (w1 / 2 ^ 24 % 256 * 2 ^ 24 + x * 2 ^ 16 + w1 / 2 ^ 8 % 256 * 2 ^ 8 +
      w1 % 256) / 2 ^ 8 % 256 = w1 / 2 ^ 8 % 256 := by omega
  have e4 : (w1 / 2 ^ 24 % 256 * 2 ^ 24 + x * 2 ^ 16 + w1 / 2 ^ 8 % 256 * 2 ^ 8 +
      w1 % 256) % 256 = w1 % 256 := by omega
  rw [e1, e2, e3, e4]

theorem flipByteBit_word1_b2 (w0 w1 : Nat) (T : List Nat) (bit : Nat)
    (hbit : bit < 8) :
    flipByteBit (wordsToBytes (w0 :: w1 :: T)) 6 bit =
      wordsToBytes (w0 ::
        (w1 / 2 ^ 24 % 256 * 2 ^ 24 + w1 / 2 ^ 16 % 256 * 2 ^ 16 +
          (w1 / 2 ^ 8 % 256 ^^^ 2 ^ bit) * 2 ^ 8 + w1 % 256) :: T) := by
  simp only [wordsToBytes_cons]
  rw [show flipByteBit (w0 / 2 ^ 24 % 256 :: w0 / 2 ^ 16 % 256 :: w0 / 2 ^ 8 % 256 ::
      w0 % 256 :: w1 / 2 ^ 24 % 256 :: w1 / 2 ^ 16 % 256 :: w1 / 2 ^ 8 % 256 ::
      w1 % 256 :: wordsToBytes T) 6 bit =
    w0 / 2 ^ 24 % 256 :: w0 / 2 ^ 16 % 256 :: w0 / 2 ^ 8 % 256 :: w0 % 256 ::
      w1 / 2 ^ 24 % 256 :: w1 / 2 ^ 16 % 256 :: (w1 / 2 ^ 8 % 256 ^^^ 2 ^ bit) ::
      w1 % 256 :: wordsToBytes T from rfl]
  obtain ⟨x, hxeq, hxlt⟩ : ∃ x, w1 / 2 ^ 8 % 256 ^^^ 2 ^ bit = x ∧ x < 256 :=
    ⟨_, rfl, xor_byte_lt _ _ (by omega) hbit⟩
  rw [hxeq]
  have e1 : (w1 / 2 ^ 24 % 256 * 2 ^ 24 + w1 / 2 ^ 16 % 256 * 2 ^ 16 + x * 2 ^ 8 +
      w1 % 256) / 2 ^ 24 % 256 = w1 / 2 ^ 24 % 256 := by omega
  have e2 : (w1 / 2 ^ 24 % 256 * 2 ^ 24 + w1 / 2 ^ 16 % 256 * 2 ^ 16 + x * 2 ^ 8 +
      w1 % 256) / 2 ^ 16 % 256 = w1 / 2 ^ 16 % 256 := by omega
  have e3 : (w1 / 2 ^ 24 % 256 * 2 ^ 24 + w1 / 2 ^ 16 % 256 * 2 ^ 16 + x * 2 ^ 8 +
      w1 % 256) / 2 ^ 8 % 256 = x := by omega
  have e4 : (w1 / 2 ^ 24 % 256 * 2 ^ 24 + w1 / 2 ^ 16 % 256 * 2 ^ 16 + x * 2 ^ 8 +
      w1 % 256) % 256 = w1 % 256 := by omega
  rw [e1, e2, e3, e4]

theorem flipByteBit_word1_b3 (w0 w1 : Nat) (T : List Nat) (bit : Nat)
    (hbit : bit < 8) :
    flipByteBit (wordsToBytes (w0 :: w1 :: T)) 7 bit =
      wordsToBytes (w0 ::
        (w1 / 2 ^ 24 % 256 * 2 ^ 24 + w1 / 2 ^ 16 % 256 * 2 ^ 16 +
          w1 / 2 ^ 8 % 256 * 2 ^ 8 + (w1 % 256 ^^^ 2 ^ bit)) :: T) := by
  simp only [wordsToBytes_cons]
  rw [show flipByteBit (w0 / 2 ^ 24 % 256 :: w0 / 2 ^ 16 % 256 :: w0 / 2 ^ 8 % 256 ::
      w0 % 256 :: w1 / 2 ^ 24 % 256 :: w1 / 2 ^ 16 % 256 :: w1 / 2 ^ 8 % 256 ::
      w1 % 256 :: wordsToBytes T) 7 bit =
    w0 / 2 ^ 24 % 256 :: w0 / 2 ^ 16 % 256 :: w0 / 2 ^ 8 % 256 :: w0 % 256 ::
      w1 / 2 ^ 24 % 256 :: w1 / 2 ^ 16 % 256 :: w1 / 2 ^ 8 % 256 ::
      (w1 % 256 ^^^ 2 ^ bit) :: wordsToBytes T from rfl]
  obtain ⟨x, hxeq, hxlt⟩ : ∃ x, w1 % 256 ^^^ 2 ^ bit = x ∧ x < 256 :=
    ⟨_, rfl, xor_byte_lt _ _ (by omega) hbit⟩
  rw [hxeq]
  have e1 : (w1 / 2 ^ 24 % 256 * 2 ^ 24 + w1 / 2 ^ 16 % 256 * 2 ^ 16 +
      w1 / 2 ^ 8 % 256 * 2 ^ 8 + x) / 2 ^ 24 % 256 = w1 / 2 ^ 24 % 256 := by omega
  have e2 : (w1 / 2 ^ 24 % 256 * 2 ^ 24 + w1 / 2 ^ 16 % 256 * 2 ^ 16 +
      w1 / 2 ^ 8 % 256 * 2 ^ 8 + x) / 2 ^ 16 % 256 = w1 / 2 ^ 16 % 256 := by omega
  have e3 : (w1 / 2 ^ 24 % 256 * 2 ^ 24 + w1 / 2 ^ 16 % 256 * 2 ^ 16 +
      w1 / 2 ^ 8 % 256 * 2 ^ 8 + x) / 2 ^ 8 % 256 = w1 / 2 ^ 8 % 256 := by omega
  have e4 : (w1 / 2 ^ 24 % 256 * 2 ^ 24 + w1 / 2 ^ 16 % 256 * 2 ^ 16 +
      w1 / 2 ^ 8 % 256 * 2 ^ 8 + x) % 256 = x := by omega
  rw [e1, e2, e3, e4]

/-- Running previous sample after encoding a list of chunks: the last
sample of the last chunk, threaded exactly as `compressBlocksGo` threads
it. -/
def chainPrev (prev : Int) : List (List Int) → Int
  | [] => prev
  | c :: cs => chainPrev (c.getLast?.getD prev) cs

/-- Block sequence for a list of chunks that are all followed by further
chunks: every block carries the FULL_END flag byte 0. -/
def goBlocks0 (prev : Int) : List (List Int) → List Block
  | [] => []
  | c :: cs => encodeBlock prev c 0 :: goBlocks0 (c.getLast?.getD prev) cs

theorem goBlocks0_length :
    ∀ (cs : List (List Int)) (prev : Int),
      (goBlocks0 prev cs).length = cs.length := by
  intro cs
  induction cs with
  | nil => intro prev; rfl
  | cons c cs ih =>
    intro prev
    simp only [goBlocks0, List.length_cons, ih]

theorem goBlocks0_words_lt :
    ∀ (cs : List (List Int)) (prev : Int),
      (∀ c ∈ cs, c.length ≤ 510) →
      ∀ w ∈ ((goBlocks0 prev cs).map Block.words).flatten, w < 2 ^ 32 := by
  intro cs
  induction cs with
  | nil => intro prev _ w hw; simp [goBlocks0] at hw
  | cons c cs ih =>
    intro prev hle w hw
    simp only [goBlocks0, List.map_cons, List.flatten_cons, List.mem_append] at hw
    rcases hw with hw | hw
    · exact encodeBlock_words_lt prev c 0 (by omega) (hle c (by simp)) w hw
    · exact ih (c.getLast?.getD prev) (fun d hd => hle d (by simp [hd])) w hw

theorem goBlocks0_words_ge :
    ∀ (cs : List (List Int)) (prev : Int),
      cs.length ≤ (((goBlocks0 prev cs).map Block.words).flatten).length := by
  intro cs
  induction cs with
  | nil => intro prev; simp [goBlocks0]
  | cons c cs ih =>
    intro prev
    have h := ih (c.getLast?.getD prev)
    simp only [goBlocks0, List.map_cons, List.flatten_cons, List.length_append,
      List.length_cons, Block.words] at h ⊢
    omega

theorem compressBlocksGo_split :
    ∀ (pcs : List (List Int)) (prev : Int) (c : List Int)
      (qcs : List (List Int)),
      compressBlocksGo prev (pcs ++ c :: qcs) =
        goBlocks0 prev pcs ++
          compressBlocksGo (chainPrev prev pcs) (c :: qcs) := by
  intro pcs
  induction pcs with
  | nil => intro prev c qcs; rfl
  | cons d pcs ih =>
    intro prev c qcs
    rcases pcs with _ | ⟨e, pcs2⟩
    · rfl
    · rw [show (d :: e :: pcs2) ++ c :: qcs = d :: e :: (pcs2 ++ c :: qcs)
        from rfl]
      rw [show compressBlocksGo prev (d :: e :: (pcs2 ++ c :: qcs)) =
        encodeBlock prev d 0 ::
          compressBlocksGo (d.getLast?.getD prev) (e :: (pcs2 ++ c :: qcs))
        from rfl]
      rw [show e :: (pcs2 ++ c :: qcs) = (e :: pcs2) ++ c :: qcs from rfl]
      rw [ih (d.getLast?.getD prev) c qcs]
      rfl

theorem wordsToBytes_append (as bs : List Nat) :
    wordsToBytes (as ++ bs) = wordsToBytes as ++ wordsToBytes bs := by
  simp [wordsToBytes]

theorem flipByteBit_append :
    ∀ (as bs : List Nat) (n bit : Nat),
      flipByteBit (as ++ bs) (as.length + n) bit =
        as ++ flipByteBit bs n bit := by
  intro as
  induction as with
  | nil => intro bs n bit; simp [flipByteBit]
  | cons a as ih =>
    intro bs n bit
    rw [show (a :: as).length + n = (as.length + n) + 1 from by
      simp only [List.length_cons]; omega]
    simp only [List.cons_append, flipByteBit]
    rw [List.getD_cons_succ, List.set_cons_succ]
    have h := ih bs n bit
    simp only [flipByteBit] at h
    rw [h]

theorem list_split_at {α : Type} :
    ∀ (l : List α) (k : Nat), k < l.length →
      ∃ pre x post, l = pre ++ x :: post ∧ pre.length = k := by
  intro l
  induction l with
  | nil => intro k hk; simp at hk
  | cons a l ih =>
    intro k hk
    rcases k with _ | k
    · exact ⟨[], a, l, rfl, rfl⟩
    · obtain ⟨pre, x, post, heq, hlen⟩ := ih k
        (by simp only [List.length_cons] at hk; omega)
      refine ⟨a :: pre, x, post, ?_, ?_⟩
      · rw [heq]; rfl
      · simp [hlen]

theorem decodeBlocks_prefix_badcheck :
    ∀ (pcs : List (List Int)) (prev : Int) (c : List Int) (cw' : Nat)
      (extra : List Nat) (bfuel need : Nat),
      (∀ d ∈ pcs, d ≠ []) → (∀ d ∈ pcs, d.length < 2 ^ 16) →
      (∀ d ∈ pcs, ∀ x ∈ d, int32 x) →
      c ≠ [] → c.length < 2 ^ 16 → (∀ x ∈ c, int32 x) →
      pcs.flatten.length + c.length ≤ need →
      pcs.length < bfuel →
      cw' % 2 ^ 24 ≠
        ((c.getLast?.getD (chainPrev prev pcs)) % (2 : Int) ^ 24).toNat →
      (decodeBlocks bfuel
          (((goBlocks0 prev pcs).map Block.words).flatten ++
            ((4 * (2 + (packDiffs c.length
                (diffsFrom (chainPrev prev pcs) c)).length) * 2 ^ 16 +
              c.length) :: cw' ::
              (packDiffs c.length (diffsFrom (chainPrev prev pcs) c) ++
                extra)))
          need prev).1 = ECStatus.EC_CHECK_ERROR := by
  intro pcs
  induction pcs with
  | nil =>
    intro prev c cw' extra bfuel need _ _ _ hcne hclen hc32 hneed hfuel hbad
    simp only [goBlocks0, List.map_nil, List.flatten_nil, List.nil_append,
      chainPrev] at hbad ⊢
    simp only [List.flatten_nil, List.length_nil] at hneed
    obtain ⟨bf, rfl⟩ : ∃ bf, bfuel = bf + 1 :=
      ⟨bfuel - 1, by simp at hfuel; omega⟩
    rw [decodeBlocks_step bf need prev c cw' extra hcne hclen hc32 (by omega)]
    rw [if_neg hbad]
  | cons d pcs ih =>
    intro prev c cw' extra bfuel need hpd hpl hp32 hcne hclen hc32 hneed hfuel
      hbad
    obtain ⟨bf, rfl⟩ : ∃ bf, bfuel = bf + 1 :=
      ⟨bfuel - 1, by simp only [List.length_cons] at hfuel; omega⟩
    simp only [goBlocks0, chainPrev, List.map_cons, List.flatten_cons,
      List.append_assoc] at hbad ⊢
    rw [decodeBlocks_encodeBlock bf need prev d 0
      (((goBlocks0 (d.getLast?.getD prev) pcs).map Block.words).flatten ++
        ((4 * (2 + (packDiffs c.length
            (diffsFrom (chainPrev (d.getLast?.getD prev) pcs) c)).length) *
          2 ^ 16 + c.length) :: cw' ::
          (packDiffs c.length
            (diffsFrom (chainPrev (d.getLast?.getD prev) pcs) c) ++ extra)))
      (hpd d (by simp)) (hpl d (by simp)) (hp32 d (by simp))
      (by simp only [List.flatten_cons, List.length_append] at hneed; omega)]
    exact ih (d.getLast?.getD prev) c cw' extra bf (need - d.length)
      (fun e he => hpd e (by simp [he])) (fun e he => hpl e (by simp [he]))
      (fun e he => hp32 e (by simp [he])) hcne hclen hc32
      (by simp only [List.flatten_cons, List.length_append] at hneed; omega)
      (by simp only [List.length_cons] at hfuel; omega) hbad

theorem decompress_prefix_badcheck (pcs : List (List Int)) (c : List Int)
    (cw' : Nat) (extra : List Nat) (count : Nat)
    (hpd : ∀ d ∈ pcs, d ≠ []) (hpl : ∀ d ∈ pcs, d.length ≤ 510)
    (hp32 : ∀ d ∈ pcs, ∀ x ∈ d, int32 x)
    (hcne : c ≠ []) (hcl : c.length ≤ 510) (hc32 : ∀ x ∈ c, int32 x)
    (hneed : pcs.flatten.length + c.length ≤ count)
    (hcw : cw' < 2 ^ 32) (hex : ∀ w ∈ extra, w < 2 ^ 32)
    (hbad : cw' % 2 ^ 24 ≠
      ((c.getLast?.getD (chainPrev 0 pcs)) % (2 : Int) ^ 24).toNat) :
    decompress (wordsToBytes
        (((goBlocks0 0 pcs).map Block.words).flatten ++
          ((4 * (2 + (packDiffs c.length
              (diffsFrom (chainPrev 0 pcs) c)).length) * 2 ^ 16 + c.length) ::
            cw' :: (packDiffs c.length (diffsFrom (chainPrev 0 pcs) c) ++
              extra)))) count =
      .error (.ec .EC_CHECK_ERROR) := by
  have hDle : (packDiffs c.length (diffsFrom (chainPrev 0 pcs) c)).length ≤
      2 * c.length := by
    have h := packDiffs_length_le c.length (diffsFrom (chainPrev 0 pcs) c)
    rwa [diffsFrom_length] at h
  have hws32 : ∀ w ∈ (((goBlocks0 0 pcs).map Block.words).flatten ++
      ((4 * (2 + (packDiffs c.length
          (diffsFrom (chainPrev 0 pcs) c)).length) * 2 ^ 16 + c.length) ::
        cw' :: (packDiffs c.length (diffsFrom (chainPrev 0 pcs) c) ++
          extra))), w < 2 ^ 32 := by
    intro w hw
    rcases List.mem_append.mp hw with hw | hw
    · exact goBlocks0_words_lt pcs 0 hpl w hw
    · simp only [List.mem_cons, List.mem_append] at hw
      rcases hw with rfl | rfl | hw | hw
      · omega
      · exact hcw
      · exact packDiffs_words_lt _ _ _ hw
      · exact hex w hw
  have hlen4 : (wordsToBytes
      (((goBlocks0 0 pcs).map Block.words).flatten ++
        ((4 * (2 + (packDiffs c.length
            (diffsFrom (chainPrev 0 pcs) c)).length) * 2 ^ 16 + c.length) ::
          cw' :: (packDiffs c.length (diffsFrom (chainPrev 0 pcs) c) ++
            extra)))).length % 4 = 0 := by
    rw [wordsToBytes_length]; omega
  have hbw : bytesToWords (wordsToBytes
      (((goBlocks0 0 pcs).map Block.words).flatten ++
        ((4 * (2 + (packDiffs c.length
            (diffsFrom (chainPrev 0 pcs) c)).length) * 2 ^ 16 + c.length) ::
          cw' :: (packDiffs c.length (diffsFrom (chainPrev 0 pcs) c) ++
            extra)))) =
      ((goBlocks0 0 pcs).map Block.words).flatten ++
        ((4 * (2 + (packDiffs c.length
            (diffsFrom (chainPrev 0 pcs) c)).length) * 2 ^ 16 + c.length) ::
          cw' :: (packDiffs c.length (diffsFrom (chainPrev 0 pcs) c) ++
            extra)) := by
    have h := bytesToWords_wordsToBytes
      (((goBlocks0 0 pcs).map Block.words).flatten ++
        ((4 * (2 + (packDiffs c.length
            (diffsFrom (chainPrev 0 pcs) c)).length) * 2 ^ 16 + c.length) ::
          cw' :: (packDiffs c.length (diffsFrom (chainPrev 0 pcs) c) ++
            extra))) hws32 []
    rw [show bytesToWords [] = [] from rfl, List.append_nil] at h
    exact h.trans (List.append_nil _)
  have hfuel : pcs.length <
      (((goBlocks0 0 pcs).map Block.words).flatten ++
        ((4 * (2 + (packDiffs c.length
            (diffsFrom (chainPrev 0 pcs) c)).length) * 2 ^ 16 + c.length) ::
          cw' :: (packDiffs c.length (diffsFrom (chainPrev 0 pcs) c) ++
            extra))).length + 1 := by
    have hge := goBlocks0_words_ge pcs 0
    simp only [List.length_append, List.length_cons]
    omega
  have h1 := decodeBlocks_prefix_badcheck pcs 0 c cw' extra
    ((((goBlocks0 0 pcs).map Block.words).flatten ++
        ((4 * (2 + (packDiffs c.length
            (diffsFrom (chainPrev 0 pcs) c)).length) * 2 ^ 16 + c.length) ::
          cw' :: (packDiffs c.length (diffsFrom (chainPrev 0 pcs) c) ++
            extra))).length + 1)
    count hpd (fun d hd => by have := hpl d hd; omega) hp32 hcne (by omega)
    hc32 hneed hfuel hbad
  rw [decompress, if_neg (by omega), hbw, e_decomp]
  obtain ⟨st, ys, hq⟩ : ∃ st ys,
      decodeBlocks
        ((((goBlocks0 0 pcs).map Block.words).flatten ++
            ((4 * (2 + (packDiffs c.length
                (diffsFrom (chainPrev 0 pcs) c)).length) * 2 ^ 16 +
              c.length) :: cw' ::
              (packDiffs c.length (diffsFrom (chainPrev 0 pcs) c) ++
                extra))).length + 1)
        (((goBlocks0 0 pcs).map Block.words).flatten ++
          ((4 * (2 + (packDiffs c.length
              (diffsFrom (chainPrev 0 pcs) c)).length) * 2 ^ 16 + c.length) ::
            cw' :: (packDiffs c.length (diffsFrom (chainPrev 0 pcs) c) ++
              extra)))
        count 0 = (st, ys) := ⟨_, _, rfl⟩
  rw [hq] at h1 ⊢
  have hst : st = ECStatus.EC_CHECK_ERROR := h1
  subst hst
  rfl

/-- C6: flipping any single bit of any of the three check-value bytes of
ANY block of a compressed stream makes `decompress` surface
`EC_CHECK_ERROR` — never a silent success with wrong samples.  Block `k`
starts at the byte offset given by the sum of the declared byte lengths
of the blocks before it, and its 24-bit check value occupies bytes 5, 6
and 7 of the block (after the 4 header bytes and the flag byte). -/
theorem check_corruption_detected (s : List Int) (k j bit : Nat)
    (h32 : ∀ x ∈ s, int32 x) (hk : k < (compressBlocks s).length)
    (hj : j = 5 ∨ j = 6 ∨ j = 7) (hbit : bit < 8) :
    decompress
      (flipByteBit (compress s)
        ((((compressBlocks s).take k).map Block.byteLength).sum + j) bit)
      s.length = .error (.ec .EC_CHECK_ERROR) := by
  have hcap : capacitySamples false 1 = 510 := rfl
  have hcappos : 0 < capacitySamples false 1 := by rw [hcap]; norm_num
  have hflat : (chunksOf (capacitySamples false 1) s.length s).flatten = s :=
    chunksOf_flatten _ hcappos s.length s le_rfl
  have hkc : k < (chunksOf (capacitySamples false 1) s.length s).length := by
    have h := compressBlocksGo_length_eq
      (chunksOf (capacitySamples false 1) s.length s) 0
    simp only [compressBlocks] at hk
    omega
  obtain ⟨pcs, c, qcs, hsp, hplen⟩ := list_split_at _ k hkc
  have hmem : ∀ d, d ∈ pcs ∨ d = c ∨ d ∈ qcs →
      d ∈ chunksOf (capacitySamples false 1) s.length s := by
    intro d hd
    rw [hsp]
    rcases hd with hd | rfl | hd
    · exact List.mem_append_left _ hd
    · exact List.mem_append_right _ (List.mem_cons_self _ _)
    · exact List.mem_append_right _ (List.mem_cons_of_mem _ hd)
  have hpd : ∀ d ∈ pcs, d ≠ [] := fun d hd =>
    chunksOf_mem_ne_nil _ hcappos s.length s d (hmem d (Or.inl hd))
  have hpl : ∀ d ∈ pcs, d.length ≤ 510 := fun d hd => by
    have h := chunksOf_mem_le _ s.length s d (hmem d (Or.inl hd))
    rwa [hcap] at h
  have h32all : ∀ d ∈ chunksOf (capacitySamples false 1) s.length s,
      ∀ x ∈ d, int32 x := fun d hd x hx =>
    h32 x (by rw [← hflat]; exact List.mem_flatten.mpr ⟨d, hd, hx⟩)
  have hp32 : ∀ d ∈ pcs, ∀ x ∈ d, int32 x := fun d hd =>
    h32all d (hmem d (Or.inl hd))
  have hcne : c ≠ [] :=
    chunksOf_mem_ne_nil _ hcappos s.length s c (hmem c (Or.inr (Or.inl rfl)))
  have hcl : c.length ≤ 510 := by
    have h := chunksOf_mem_le _ s.length s c (hmem c (Or.inr (Or.inl rfl)))
    rwa [hcap] at h
  have hc32 : ∀ x ∈ c, int32 x := h32all c (hmem c (Or.inr (Or.inl rfl)))
  have hneed : pcs.flatten.length + c.length ≤ s.length := by
    have h := congrArg List.length hflat
    rw [hsp] at h
    simp only [List.flatten_append, List.flatten_cons, List.length_append] at h
    omega
  have hgo : compressBlocksGo 0 (chunksOf (capacitySamples false 1) s.length s) =
      goBlocks0 0 pcs ++ compressBlocksGo (chainPrev 0 pcs) (c :: qcs) := by
    rw [hsp, compressBlocksGo_split]
  obtain ⟨flag, bs, htail, hflag, hbs32⟩ :
      ∃ flag bs, compressBlocksGo (chainPrev 0 pcs) (c :: qcs) =
          encodeBlock (chainPrev 0 pcs) c flag :: bs ∧ flag ≤ 1 ∧
        ∀ w ∈ (bs.map Block.words).flatten, w < 2 ^ 32 := by
    rcases qcs with _ | ⟨q, qcs2⟩
    · exact ⟨1, [], rfl, by omega, by simp⟩
    · refine ⟨0, compressBlocksGo (c.getLast?.getD (chainPrev 0 pcs))
        (q :: qcs2), rfl, by omega, ?_⟩
      intro w hw
      refine compressBlocksGo_words_lt (q :: qcs2) _ ?_ w hw
      intro d hd
      have h := chunksOf_mem_le _ s.length s d (hmem d (Or.inr (Or.inr hd)))
      rwa [hcap] at h
  have htake : (compressBlocks s).take k = goBlocks0 0 pcs := by
    simp only [compressBlocks]
    rw [hgo, show k = (goBlocks0 0 pcs).length from by
      rw [goBlocks0_length]; omega, List.take_left]
  have hsum : (((compressBlocks s).take k).map Block.byteLength).sum =
      (wordsToBytes (((goBlocks0 0 pcs).map Block.words).flatten)).length := by
    rw [htake, ← blocks_byteLength_sum, wordsToBytes_length]
    omega
  have hchk : ((c.getLast?.getD (chainPrev 0 pcs)) % (2 : Int) ^ 24).toNat <
      2 ^ 24 := toField_lt 24 (c.getLast?.getD (chainPrev 0 pcs))
  have hcompress : compress s = wordsToBytes
      (((goBlocks0 0 pcs).map Block.words).flatten ++
        ((4 * (2 + (packDiffs c.length
            (diffsFrom (chainPrev 0 pcs) c)).length) * 2 ^ 16 + c.length) ::
          (flag * 2 ^ 24 +
            ((c.getLast?.getD (chainPrev 0 pcs)) % (2 : Int) ^ 24).toNat) ::
          (packDiffs c.length (diffsFrom (chainPrev 0 pcs) c) ++
            (bs.map Block.words).flatten))) := by
    rw [compress]
    congr 1
    simp only [compressWords, compressBlocks, hgo, htail, List.map_append,
      List.map_cons, List.flatten_append, List.flatten_cons, List.append_assoc]
    congr 1
  rw [hcompress, hsum, wordsToBytes_append, flipByteBit_append]
  rcases hj with rfl | rfl | rfl
  · rw [flipByteBit_word1_b1 _ _ _ bit hbit, ← wordsToBytes_append]
    obtain ⟨x, hxeq, hxlt, hxne⟩ : ∃ x,
        (flag * 2 ^ 24 +
            ((c.getLast?.getD (chainPrev 0 pcs)) % (2 : Int) ^ 24).toNat) /
            2 ^ 16 % 256 ^^^ 2 ^ bit = x ∧ x < 256 ∧
          x ≠ (flag * 2 ^ 24 +
            ((c.getLast?.getD (chainPrev 0 pcs)) % (2 : Int) ^ 24).toNat) /
            2 ^ 16 % 256 :=
      ⟨_, rfl, xor_byte_lt _ _ (by omega) hbit, xor_flip_ne _ _⟩
    rw [hxeq]
    exact decompress_prefix_badcheck pcs c _ _ s.length hpd hpl hp32 hcne hcl
      hc32 hneed (by omega) hbs32 (by omega)
  · rw [flipByteBit_word1_b2 _ _ _ bit hbit, ← wordsToBytes_append]
    obtain ⟨x, hxeq, hxlt, hxne⟩ : ∃ x,
        (flag * 2 ^ 24 +
            ((c.getLast?.getD (chainPrev 0 pcs)) % (2 : Int) ^ 24).toNat) /
            2 ^ 8 % 256 ^^^ 2 ^ bit = x ∧ x < 256 ∧
          x ≠ (flag * 2 ^ 24 +
            ((c.getLast?.getD (chainPrev 0 pcs)) % (2 : Int) ^ 24).toNat) /
            2 ^ 8 % 256 :=
      ⟨_, rfl, xor_byte_lt _ _ (by omega) hbit, xor_flip_ne _ _⟩
    rw [hxeq]
    exact decompress_prefix_badcheck pcs c _ _ s.length hpd hpl hp32 hcne hcl
      hc32 hneed (by omega) hbs32 (by omega)
  · rw [flipByteBit_word1_b3 _ _ _ bit hbit, ← wordsToBytes_append]
    obtain ⟨x, hxeq, hxlt, hxne⟩ : ∃ x,
        (flag * 2 ^ 24 +
            ((c.getLast?.getD (chainPrev 0 pcs)) % (2 : Int) ^ 24).toNat) %
            256 ^^^ 2 ^ bit = x ∧ x < 256 ∧
          x ≠ (flag * 2 ^ 24 +
            ((c.getLast?.getD (chainPrev 0 pcs)) % (2 : Int) ^ 24).toNat) %
            256 :=
      ⟨_, rfl, xor_byte_lt _ _ (by omega) hbit, xor_flip_ne _ _⟩
    rw [hxeq]
    exact decompress_prefix_badcheck pcs c _ _ s.length hpd hpl hp32 hcne hcl
      hc32 hneed (by omega) hbs32 (by omega)

/-- Closed witness for the corruption-detection theorem. -/
theorem check_corruption_detected_witness :
    ((∀ x ∈ ([5] : List Int), int32 x) ∧
        (0 : Nat) < (compressBlocks [5]).length ∧
        ((5 : Nat) = 5 ∨ (5 : Nat) = 6 ∨ (5 : Nat) = 7) ∧ (0 : Nat) < 8) ∧
      decompress
        (flipByteBit (compress [5])
          ((((compressBlocks [5]).take 0).map Block.byteLength).sum + 5) 0)
        ([5] : List Int).length = .error (.ec .EC_CHECK_ERROR) :=
  ⟨⟨by decide, by decide, by decide, by decide⟩,
    check_corruption_detected [5] 0 5 0 (by decide) (by decide) (by decide)
      (by decide)⟩

end E1
